import Mathlib

/-!
Verification of the streaming-manifest normalization engine of
`yt_dlp/extractor/common.py` (HLS, DASH, ISM, F4M and SMIL parsers).

Manifest text is modelled at the line level: a document is the list of its
lines (`splitlines` applied), each line a `List Char`.  Python numeric values
are modelled as `Nat` / `Int` / `ℚ` (float division is exact on the inputs the
parsers handle), fallible operations return `Option` / `Except`, and Python
dictionaries whose key sets are dynamic (DASH formats) are modelled as
insertion-ordered association lists.

Helpers that live in `yt_dlp/utils` (not part of the source file under
verification) are modelled from the specification; each such definition is
marked `Modelled from the spec:` in its doc comment.
-/

namespace YtDlp

/-- `List.isPrefixOf` specialised to characters, Python `str.startswith`. -/
def startsWithL (p l : List Char) : Bool := List.isPrefixOf p l

/-- Python `needle in haystack` (substring containment) on one line. -/
def containsSubL (needle : List Char) : List Char → Bool
  | [] => needle.isEmpty
  | c :: rest => startsWithL needle (c :: rest) || containsSubL needle rest

/-- Python `str.strip()` on a line. -/
def stripL (l : List Char) : List Char :=
  ((l.dropWhile Char.isWhitespace).reverse.dropWhile Char.isWhitespace).reverse

/-- Digits of a decimal literal to a natural number. -/
def digitsToNat (l : List Char) : Option Nat :=
  if l ≠ [] ∧ l.all Char.isDigit then
    some (l.foldl (fun acc c => 10 * acc + (c.toNat - 48)) 0)
  else none

/-- Modelled from the spec: `int_or_none` from `yt_dlp/utils` restricted to
decimal naturals (the manifests' integer attributes). -/
def intOrNoneL (l : List Char) : Option Nat := digitsToNat (stripL l)

/-- Exact rational division, stated through `Rat.divInt` so that concrete
values reduce inside the kernel (the `Field ℚ` operations are irreducible). -/
def qDiv (a b : ℚ) : ℚ := Rat.divInt (a.num * (b.den : Int)) ((a.den : Int) * b.num)

/-- Exact rational addition through `Rat.divInt` (kernel-reducible). -/
def qAdd (a b : ℚ) : ℚ :=
  Rat.divInt (a.num * (b.den : Int) + b.num * (a.den : Int)) ((a.den : Int) * (b.den : Int))

/-- Exact rational subtraction through `Rat.divInt` (kernel-reducible). -/
def qSub (a b : ℚ) : ℚ :=
  Rat.divInt (a.num * (b.den : Int) - b.num * (a.den : Int)) ((a.den : Int) * (b.den : Int))

theorem qDiv_eq (a b : ℚ) : qDiv a b = a / b := by
  rw [qDiv, Rat.divInt_eq_div]
  push_cast
  conv_rhs => rw [← Rat.num_div_den a, ← Rat.num_div_den b]
  rw [div_div_eq_mul_div, div_mul_eq_mul_div, div_div]

theorem qAdd_eq (a b : ℚ) : qAdd a b = a + b := by
  have ha : ((a.den : ℚ)) ≠ 0 := Nat.cast_ne_zero.mpr a.den_nz
  have hb : ((b.den : ℚ)) ≠ 0 := Nat.cast_ne_zero.mpr b.den_nz
  rw [qAdd, Rat.divInt_eq_div]
  push_cast
  conv_rhs => rw [← Rat.num_div_den a, ← Rat.num_div_den b]
  rw [div_add_div _ _ ha hb]
  ring_nf

theorem qSub_eq (a b : ℚ) : qSub a b = a - b := by
  have ha : ((a.den : ℚ)) ≠ 0 := Nat.cast_ne_zero.mpr a.den_nz
  have hb : ((b.den : ℚ)) ≠ 0 := Nat.cast_ne_zero.mpr b.den_nz
  rw [qSub, Rat.divInt_eq_div]
  push_cast
  conv_rhs => rw [← Rat.num_div_den a, ← Rat.num_div_den b]
  rw [div_sub_div _ _ ha hb]
  ring_nf

/-- Modelled from the spec: `float_or_none` from `yt_dlp/utils`; parses
`digits[.digits]` to an exact rational, `none` on anything else. -/
def floatOrNoneL (l : List Char) : Option ℚ :=
  let l := stripL l
  let intPart := l.takeWhile Char.isDigit
  let rest := l.dropWhile Char.isDigit
  match digitsToNat intPart, rest with
  | some n, [] => some (n : ℚ)
  | some n, '.' :: frac =>
      match digitsToNat frac with
      | some m => some (Rat.divInt ((n : Int) * 10 ^ frac.length + (m : Int)) (10 ^ frac.length))
      | none => none
  | _, _ => none

/-- A document is the list of its lines (Python `splitlines`). -/
abbrev Doc := List (List Char)

/-- The chars of a string literal. -/
def cs (s : String) : List Char := s.data

/-- Python `substr in doc` for a newline-free needle: some line contains it. -/
def docContains (needle : String) (doc : Doc) : Bool :=
  doc.any fun l => containsSubL (cs needle) l

/-! ### m3u8 attribute lists

`parse_m3u8_attributes` lives in `yt_dlp/utils`, outside the file under
verification.  Modelled from the spec: an `#EXT-X-…:` tag line carries a
comma-separated list of `KEY=VALUE` pairs, values optionally double-quoted
(commas inside quotes are not separators; quotes are stripped). -/

/-- Split on top-level commas, treating `"`-quoted spans as opaque. -/
def splitTopComma : List Char → Bool → List Char → List (List Char)
  | [], _, cur => [cur.reverse]
  | c :: rest, inQ, cur =>
    if c = '"' then splitTopComma rest (!inQ) (c :: cur)
    else if c = ',' && !inQ then cur.reverse :: splitTopComma rest false []
    else splitTopComma rest inQ (c :: cur)

/-- Strip one layer of surrounding double quotes. -/
def unquote (l : List Char) : List Char :=
  match l with
  | '"' :: rest =>
      if rest ≠ [] ∧ rest.getLast? = some '"' then rest.dropLast else l
  | _ => l

/-- One `KEY=VALUE` pair; `none` when there is no `=`. -/
def splitKeyVal (l : List Char) : Option (String × String) :=
  let key := l.takeWhile (fun c => c ≠ '=')
  match l.dropWhile (fun c => c ≠ '=') with
  | '=' :: v => some (⟨key⟩, ⟨unquote v⟩)
  | _ => none

/-- Modelled from the spec: `parse_m3u8_attributes` from `yt_dlp/utils`. -/
def parse_m3u8_attributes (l : List Char) : List (String × String) :=
  (splitTopComma l false []).filterMap splitKeyVal

/-- Python `dict.get` on an attribute list (first binding wins). -/
def attrGet (k : String) (attrs : List (String × String)) : Option String :=
  (attrs.find? (fun p => p.1 = k)).map Prod.snd

/-- Python truthiness of an optional string (`None` and `''` are falsy). -/
def truthy : Option String → Bool
  | some s => s ≠ ""
  | none => false

end YtDlp
namespace YtDlp

/-! ### HLS: `_parse_m3u8_formats_and_subtitles` -/

/-- One HLS format dictionary (the fields this parser writes). -/
structure HlsFormat where
  format_id : String := ""
  format_index : Option Nat := none
  url : String := ""
  manifest_url : Option String := none
  format_note : Option String := none
  language : Option String := none
  ext : Option String := none
  protocol : String := ""
  preference : Option Int := none
  quality : Option Int := none
  has_drm : Bool := false
  tbr : Option ℚ := none
  fps : Option ℚ := none
  width : Option Nat := none
  height : Option Nat := none
  vbr : Option ℚ := none
  abr : Option ℚ := none
  vcodec : Option String := none
  acodec : Option String := none
  deriving Repr, DecidableEq

/-- One subtitle-track entry. -/
structure SubInfo where
  url : String
  ext : Option String := none
  protocol : Option String := none
  deriving Repr, DecidableEq

/-- `language → ordered entries`, insertion-ordered like a Python dict. -/
abbrev Subtitles := List (String × List SubInfo)

/-- `subtitles.setdefault(lang, []).append(info)`. -/
def subsAdd (lang : String) (info : SubInfo) : Subtitles → Subtitles
  | [] => [(lang, [info])]
  | (l, infos) :: rest =>
    if l = lang then (l, infos ++ [info]) :: rest else (l, infos) :: subsAdd lang info rest

/-- Modelled from the spec: `join_nonempty` from `yt_dlp/utils` — join the
truthy parts with a dash. -/
def join_nonempty (parts : List (Option String)) : String :=
  String.intercalate "-" ((parts.filterMap id).filter (fun s => s ≠ ""))

/-- A numeric `join_nonempty` part; Python truthiness drops the integer 0. -/
def natJoinPart (n : Nat) : Option String := if n = 0 then none else some (Nat.repr n)

/-- Modelled from the spec: `encode_data_uri` — a `data:` URL embedding the
document (used only when no manifest URL is known). -/
def encode_data_uri (doc : Doc) : String :=
  "data:application/x-mpegurl," ++ String.intercalate "\n" (doc.map fun l => ⟨l⟩)

/-- Lines counted by `_extract_m3u8_playlist_indices`: `startswith` on the
`#EXT-X-DISCONTINUITY` prefix (this also counts `#EXT-X-DISCONTINUITY-SEQUENCE`
tags, not only discontinuity boundaries). -/
def discontinuityCount (doc : Doc) : Nat :=
  (doc.filter fun l => startsWithL (cs "#EXT-X-DISCONTINUITY") l).length

/-- `_extract_m3u8_playlist_indices(m3u8_doc=doc)`: `range(1 + count)` when
discontinuity splitting is on, else the single index `None`. -/
def playlistIndicesDoc (splitDisc : Bool) (doc : Doc) : List (Option Nat) :=
  if splitDisc then (List.range (1 + discontinuityCount doc)).map some else [none]

/-- The parameters of `_parse_m3u8_formats_and_subtitles`.  `has_drm` is the
value of `HlsFD._has_drm(m3u8_doc)` (computed by the downloader, outside this
file); `fetchIndices` is `_extract_m3u8_playlist_indices(manifest_url)`, which
downloads the variant playlist — an oracle here, consulted only when
`splitDisc` is on (the code's non-split branch returns `[None]` for any
argument). -/
structure HlsParams where
  m3u8_url : Option String := none
  ext : Option String := none
  entry_protocol : String := "m3u8_native"
  preference : Option Int := none
  quality : Option Int := none
  m3u8_id : Option String := none
  live : Bool := false
  splitDisc : Bool := false
  has_drm : Bool := false
  fetchIndices : String → List (Option Nat) := fun _ => [none]

/-- The media-playlist branch: one format per playlist index, returned as is
(`'url': m3u8_url or encode_data_uri(...)` — Python truthiness, so an empty
manifest URL also falls back to the data URI). -/
def mediaPlaylistFormats (p : HlsParams) (doc : Doc) : List HlsFormat :=
  (playlistIndicesDoc p.splitDisc doc).map fun idx =>
    { format_id := join_nonempty [p.m3u8_id, idx.bind natJoinPart]
      format_index := idx
      url := if truthy p.m3u8_url then p.m3u8_url.getD "" else encode_data_uri doc
      ext := p.ext
      protocol := p.entry_protocol
      preference := p.preference
      quality := p.quality
      has_drm := p.has_drm }

/-- Modelled from the spec: `format_url` — absolute URLs pass through, others
are resolved against the manifest URL (`urllib.parse.urljoin`, simple-join
model). -/
def format_url (base : Option String) (u : String) : String :=
  if startsWithL (cs "http://") (cs u) || startsWithL (cs "https://") (cs u) then u
  else (base.getD "") ++ u

/-- Modelled from the spec: `determine_ext` from `yt_dlp/utils` — the suffix
after the final dot when purely alphanumeric, else the default. -/
def determine_ext (u : String) (dflt : Option String) : Option String :=
  let l := (cs u).reverse.takeWhile (fun c => c ≠ '.')
  if l.length < (cs u).length ∧ l ≠ [] ∧ l.all Char.isAlphanum then some ⟨l.reverse⟩
  else dflt

/-- Modelled from the spec: `parse_codecs` from `yt_dlp/utils`.  The CODECS
list is split on commas and each entry classified by its fourcc; the result is
`(vcodec, acodec)` with the `"none"` sentinel for the missing kind, or `none`
for the empty dict (nothing recognised). -/
def codecKindVideo (c : List Char) : Bool :=
  [cs "avc1", cs "avc3", cs "h264", cs "hev1", cs "hvc1", cs "vp8", cs "vp9",
    cs "vp09", cs "av01"].any fun p => startsWithL p c

/-- Modelled from the spec: audio fourccs recognised by `parse_codecs`. -/
def codecKindAudio (c : List Char) : Bool :=
  [cs "mp4a", cs "opus", cs "vorbis", cs "mp3", cs "ac-3", cs "ec-3",
    cs "flac"].any fun p => startsWithL p c

/-- Modelled from the spec: `parse_codecs` (see `codecKindVideo`). -/
def parse_codecs (o : Option String) : Option (String × String) :=
  match o with
  | none => none
  | some s =>
    let entries := ((splitTopComma (cs s) false []).map stripL).filter (fun l => l ≠ [])
    let v := entries.find? codecKindVideo
    let a := entries.find? codecKindAudio
    match v, a with
    | none, none => none
    | _, _ => some (v.elim "none" (fun l => ⟨l⟩), a.elim "none" (fun l => ⟨l⟩))

/-- `float_or_none(value, scale)` on an optional attribute string. -/
def floatScaled (o : Option String) (scale : ℚ) : Option ℚ :=
  (o.bind fun s => floatOrNoneL (cs s)).map fun q => qDiv q scale

/-- Python `x or y` on optional strings (empty string is falsy). -/
def orTruthy (x y : Option String) : Option String := if truthy x then x else y

/-- Python `int(q)` (truncation toward zero) of a rational. -/
def qTruncInt (q : ℚ) : Int := q.num.tdiv q.den

end YtDlp

namespace YtDlp

/-- Leftmost match of the `RESOLUTION` regex `(\d+)[xX](\d+)` at one position. -/
def resolutionAt (l : List Char) : Option (Nat × Nat) :=
  let w := l.takeWhile Char.isDigit
  match digitsToNat w, l.drop w.length with
  | some wn, x :: rest =>
    if x = 'x' ∨ x = 'X' then
      match digitsToNat (rest.takeWhile Char.isDigit) with
      | some hn => some (wn, hn)
      | none => none
    else none
  | _, _ => none

/-- `re.search(r'(\d+)[xX](\d+)', resolution)`. -/
def findResolution : List Char → Option (Nat × Nat)
  | [] => none
  | c :: rest =>
    match resolutionAt (c :: rest) with
    | some r => some r
    | none => findResolution rest

/-- Match `(?:%3D|=)(\d+)` at the head of the list: digits and the rest. -/
def eqDigitsAt (l : List Char) : Option (List Char × List Char) :=
  let after : Option (List Char) :=
    if startsWithL (cs "%3D") l then some (l.drop 3)
    else if startsWithL (cs "=") l then some (l.drop 1)
    else none
  match after with
  | some r =>
    let ds := r.takeWhile Char.isDigit
    if ds ≠ [] then some (ds, r.drop ds.length) else none
  | none => none

/-- First position where `(?:%3D|=)(\d+)` matches (the lazy `.*?` scan). -/
def scanEqDigits : List Char → Option (List Char × List Char)
  | [] => none
  | c :: rest =>
    match eqDigitsAt (c :: rest) with
    | some r => some r
    | none => scanEqDigits rest

/-- The optional `(?:-video.*?(?:%3D|=)(\d+))?` group, anchored. -/
def uspVideoPart (l : List Char) : Option (List Char) :=
  if startsWithL (cs "-video") l then (scanEqDigits (l.drop 6)).map Prod.fst else none

/-- The Unified Streaming Platform bitrate regex
`audio.*?(?:%3D|=)(\d+)(?:-video.*?(?:%3D|=)(\d+))?` (leftmost, lazy). -/
def uspSearch : List Char → Option (List Char × Option (List Char))
  | [] => none
  | c :: rest =>
    if startsWithL (cs "audio") (c :: rest) then
      match scanEqDigits ((c :: rest).drop 5) with
      | some (abr, after) => some (abr, uspVideoPart after)
      | none => uspSearch rest
    else uspSearch rest

/-- The mutable state of the master-playlist parse: the rendition `groups`
dict and the accumulated `formats` / `subtitles`. -/
structure MasterState where
  groups : List (String × List (List (String × String))) := []
  formats : List HlsFormat := []
  subtitles : Subtitles := []

/-- `groups.setdefault(group_id, []).append(media)`. -/
def groupsAdd (gid : String) (media : List (String × String)) :
    List (String × List (List (String × String))) →
    List (String × List (List (String × String)))
  | [] => [(gid, [media])]
  | (g, ms) :: rest =>
    if g = gid then (g, ms ++ [media]) :: rest else (g, ms) :: groupsAdd gid media rest

/-- `groups.get(gid)`. -/
def groupsGet (gid : String) (gs : List (String × List (List (String × String)))) :
    Option (List (List (String × String))) :=
  (gs.find? (fun p => p.1 = gid)).map Prod.snd

/-- `extract_media(x_media_line)` — one `#EXT-X-MEDIA:` line of pass 1.  The
Python attribute regex skips the tag header, hence the prefix drop. -/
def extract_media (p : HlsParams) (st : MasterState) (line : List Char) : MasterState :=
  let media := parse_m3u8_attributes (line.drop (cs "#EXT-X-MEDIA:").length)
  match attrGet "TYPE" media, attrGet "GROUP-ID" media, attrGet "NAME" media with
  | some mt, some gid, some nm =>
    if mt = "" ∨ gid = "" ∨ nm = "" then st
    else
      let st := { st with groups := groupsAdd gid media st.groups }
      let st :=
        if mt = "SUBTITLES" then
          match attrGet "URI" media with
          | some uri =>
            if uri = "" then st
            else
              let url := format_url p.m3u8_url uri
              let ext := determine_ext url (some "unknown_video")
              let info : SubInfo :=
                if ext = some "m3u8" then
                  { url := url, ext := some "vtt", protocol := some "m3u8_native" }
                else { url := url, ext := ext }
              let lang := (orTruthy (attrGet "LANGUAGE" media) (some "und")).getD "und"
              { st with subtitles := subsAdd lang info st.subtitles }
          | none => st
        else st
      if mt ≠ "VIDEO" ∧ mt ≠ "AUDIO" then st
      else
        match attrGet "URI" media with
        | some uri =>
          if uri = "" then st
          else
            let manifest_url := format_url p.m3u8_url uri
            let idxs := if p.splitDisc then p.fetchIndices manifest_url else [none]
            { st with formats := st.formats ++ idxs.map fun idx =>
                { format_id := join_nonempty [p.m3u8_id, some gid, some nm, idx.bind natJoinPart]
                  format_note := some nm
                  format_index := idx
                  url := manifest_url
                  manifest_url := p.m3u8_url
                  language := attrGet "LANGUAGE" media
                  ext := p.ext
                  protocol := p.entry_protocol
                  preference := p.preference
                  quality := p.quality
                  has_drm := p.has_drm
                  vcodec := if mt = "AUDIO" then some "none" else none } }
        | none => st
  | _, _, _ => st

/-- `build_stream_name()` — `NAME`, else the referenced `VIDEO` rendition
group's first member name, else the group id. -/
def build_stream_name (groups : List (String × List (List (String × String))))
    (lastInf : List (String × String)) : Option String :=
  let stream_name := attrGet "NAME" lastInf
  if truthy stream_name then stream_name
  else
    match attrGet "VIDEO" lastInf with
    | none => none
    | some gid =>
      if gid = "" then none
      else
        match groupsGet gid groups with
        | none => some gid
        | some [] => some gid
        | some (rendition :: _) =>
          some ((orTruthy (attrGet "NAME" rendition) (some gid)).getD gid)

end YtDlp

namespace YtDlp

/-- Python `str.replace` (all occurrences, left to right).  Fuel-structured so
that concrete values reduce in the kernel; the initial fuel always suffices. -/
def replaceSubAux (pat rep : List Char) : Nat → List Char → List Char
  | _, [] => []
  | 0, l => l
  | fuel + 1, c :: rest =>
    if pat ≠ [] && startsWithL pat (c :: rest) then
      rep ++ replaceSubAux pat rep fuel (List.drop pat.length (c :: rest))
    else c :: replaceSubAux pat rep fuel rest

/-- Python `str.replace`. -/
def replaceSub (pat rep l : List Char) : List Char := replaceSubAux pat rep l.length l

/-- The state of pass 2 of the master-playlist parse (`last_stream_inf` and
the format list; subtitles are only written by pass 1). -/
structure VariantState where
  lastInf : List (String × String) := []
  formats : List HlsFormat := []

/-- The base dictionary literal `f = {...}` of the variant loop body. -/
def baseVariantFormat (p : HlsParams)
    (groups : List (String × List (List (String × String))))
    (lastInf : List (String × String)) (manifest_url : String)
    (tbr : Option ℚ) (formatsLen : Nat) (idx : Option Nat) : HlsFormat :=
  let fallbackNum : Int :=
    match tbr with
    | some q => if q = 0 then (formatsLen : Int) else qTruncInt q
    | none => (formatsLen : Int)
  let middle : Option String :=
    if p.live then none
    else
      let stream_name := build_stream_name groups lastInf
      some (if truthy stream_name then stream_name.getD "" else Int.repr fallbackNum)
  { format_id := join_nonempty [p.m3u8_id, middle, idx.bind natJoinPart]
    format_index := idx
    url := manifest_url
    manifest_url := p.m3u8_url
    tbr := tbr
    ext := p.ext
    fps := floatScaled (attrGet "FRAME-RATE" lastInf) 1
    protocol := p.entry_protocol
    preference := p.preference
    quality := p.quality
    has_drm := p.has_drm }

/-- The YouTube-specific `YT-EXT-AUDIO-CONTENT-ID` language update. -/
def updYtLanguage (lastInf : List (String × String)) (f : HlsFormat) : HlsFormat :=
  match attrGet "YT-EXT-AUDIO-CONTENT-ID" lastInf with
  | some yt =>
    if yt ≠ "" then { f with language := some ⟨(cs yt).takeWhile (fun c => c ≠ '.')⟩ } else f
  | none => f

/-- The `RESOLUTION` width/height update. -/
def updResolution (lastInf : List (String × String)) (f : HlsFormat) : HlsFormat :=
  match attrGet "RESOLUTION" lastInf with
  | some res =>
    if res ≠ "" then
      match findResolution (cs res) with
      | some wh => { f with width := some wh.1, height := some wh.2 }
      | none => f
    else f
  | none => f

/-- The Unified Streaming Platform `vbr`/`abr` update. -/
def updUsp (f : HlsFormat) : HlsFormat :=
  match uspSearch (cs f.url) with
  | some av =>
    { f with abr := (digitsToNat av.1).map (fun n => qDiv (n : ℚ) 1000)
             vbr := av.2.bind fun d => (digitsToNat d).map fun n => qDiv (n : ℚ) 1000 }
  | none => f

/-- `f.update(codecs)`. -/
def updCodecs (codecs : Option (String × String)) (f : HlsFormat) : HlsFormat :=
  match codecs with
  | some va => { f with vcodec := some va.1, acodec := some va.2 }
  | none => f

/-- The rendition-group audio linkage: a video variant that references an
`AUDIO` group whose first rendition has a `URI` gets `acodec = "none"`. -/
def updAudioLink (groups : List (String × List (List (String × String))))
    (lastInf : List (String × String)) (codecs : Option (String × String))
    (f : HlsFormat) : HlsFormat :=
  let audio_group_id := attrGet "AUDIO" lastInf
  if truthy audio_group_id ∧ codecs.isSome ∧ f.vcodec ≠ some "none" then
    match groupsGet (audio_group_id.getD "") groups with
    | some (rendition :: _) =>
      if truthy (attrGet "URI" rendition) then { f with acodec := some "none" } else f
    | _ => f
  else f

/-- The trailing `ext` default. -/
def updExtDefault (f : HlsFormat) : HlsFormat :=
  if truthy f.ext then f
  else { f with ext := some (if f.vcodec = some "none" then "m4a" else "mp4") }

/-- The format built for one `#EXT-X-STREAM-INF:` variant URI at one playlist
index (the body of the `for idx in _extract_m3u8_playlist_indices(...)` loop,
up to and including the `ext` default). -/
def buildVariantFormat (p : HlsParams)
    (groups : List (String × List (List (String × String))))
    (lastInf : List (String × String)) (manifest_url : String)
    (tbr : Option ℚ) (formatsLen : Nat) (idx : Option Nat) : HlsFormat :=
  let codecs := parse_codecs (attrGet "CODECS" lastInf)
  updExtDefault (updAudioLink groups lastInf codecs
    (updCodecs codecs
      (updUsp (updResolution lastInf (updYtLanguage lastInf
        (baseVariantFormat p groups lastInf manifest_url tbr formatsLen idx))))))

/-- The `for idx in _extract_m3u8_playlist_indices(manifest_url)` loop: append
the variant format (and its `PROGRESSIVE-URI` twin) per index. -/
def variantLoop (p : HlsParams) (groups : List (String × List (List (String × String))))
    (lastInf : List (String × String)) (manifest_url : String) (tbr : Option ℚ) :
    List HlsFormat → List (Option Nat) → List HlsFormat
  | fmts, [] => fmts
  | fmts, idx :: rest =>
    let f := buildVariantFormat p groups lastInf manifest_url tbr fmts.length idx
    let fmts := fmts ++ [f]
    let fmts :=
      match attrGet "PROGRESSIVE-URI" lastInf with
      | some prog =>
        if prog ≠ "" then
          fmts ++ [{ f with
            manifest_url := none
            format_id := ⟨replaceSub (cs "hls-") (cs "http-") (cs f.format_id)⟩
            protocol := "http"
            url := prog }]
        else fmts
      | none => fmts
    variantLoop p groups lastInf manifest_url tbr fmts rest

/-- One line of pass 2 (`#EXT-X-STREAM-INF:` attributes, comments/blank lines,
variant URI lines). -/
def variantStep (p : HlsParams) (groups : List (String × List (List (String × String))))
    (vs : VariantState) (line : List Char) : VariantState :=
  if startsWithL (cs "#EXT-X-STREAM-INF:") line then
    { vs with lastInf := parse_m3u8_attributes (line.drop (cs "#EXT-X-STREAM-INF:").length) }
  else if startsWithL (cs "#") line || (stripL line).isEmpty then vs
  else
    let tbr := floatScaled
      (orTruthy (attrGet "AVERAGE-BANDWIDTH" vs.lastInf) (attrGet "BANDWIDTH" vs.lastInf)) 1000
    let manifest_url := format_url p.m3u8_url ⟨stripL line⟩
    let idxs := if p.splitDisc then p.fetchIndices manifest_url else [none]
    { lastInf := [], formats := variantLoop p groups vs.lastInf manifest_url tbr vs.formats idxs }

/-- The master-playlist branch: pass 1 over `#EXT-X-MEDIA:` lines, pass 2 over
`#EXT-X-STREAM-INF:` variants. -/
def parseMasterPlaylist (p : HlsParams) (doc : Doc) : List HlsFormat × Subtitles :=
  let st1 := doc.foldl
    (fun st line => if startsWithL (cs "#EXT-X-MEDIA:") line then extract_media p st line else st)
    {}
  let vs := doc.foldl (variantStep p st1.groups) { lastInf := [], formats := st1.formats }
  (vs.formats, st1.subtitles)

/-- `_parse_m3u8_formats_and_subtitles`: media playlists (detected by the
`#EXT-X-TARGETDURATION` substring) are returned as is, anything else is parsed
as a master playlist. -/
def parse_m3u8_formats_and_subtitles (p : HlsParams) (doc : Doc) :
    List HlsFormat × Subtitles :=
  if docContains "#EXT-X-TARGETDURATION" doc then (mediaPlaylistFormats p doc, [])
  else parseMasterPlaylist p doc

end YtDlp

namespace YtDlp

/-- Pass 1 of the master-playlist parse, as a named state for theorems. -/
def masterPass1 (p : HlsParams) (doc : Doc) : MasterState :=
  doc.foldl
    (fun st line => if startsWithL (cs "#EXT-X-MEDIA:") line then extract_media p st line else st)
    {}

theorem parseMasterPlaylist_eq (p : HlsParams) (doc : Doc) :
    parseMasterPlaylist p doc =
      ((doc.foldl (variantStep p (masterPass1 p doc).groups)
        { lastInf := [], formats := (masterPass1 p doc).formats }).formats,
       (masterPass1 p doc).subtitles) := rfl

theorem updYtLanguage_fields (lastInf : List (String × String)) (f : HlsFormat) :
    (updYtLanguage lastInf f).url = f.url ∧ (updYtLanguage lastInf f).vcodec = f.vcodec ∧
      (updYtLanguage lastInf f).acodec = f.acodec := by
  unfold updYtLanguage
  repeat' split
  all_goals exact ⟨rfl, rfl, rfl⟩

theorem updResolution_fields (lastInf : List (String × String)) (f : HlsFormat) :
    (updResolution lastInf f).url = f.url ∧ (updResolution lastInf f).vcodec = f.vcodec ∧
      (updResolution lastInf f).acodec = f.acodec := by
  unfold updResolution
  repeat' split
  all_goals exact ⟨rfl, rfl, rfl⟩

theorem updUsp_fields (f : HlsFormat) :
    (updUsp f).url = f.url ∧ (updUsp f).vcodec = f.vcodec ∧ (updUsp f).acodec = f.acodec := by
  unfold updUsp
  repeat' split
  all_goals exact ⟨rfl, rfl, rfl⟩

theorem updExtDefault_fields (f : HlsFormat) :
    (updExtDefault f).url = f.url ∧ (updExtDefault f).vcodec = f.vcodec ∧
      (updExtDefault f).acodec = f.acodec := by
  unfold updExtDefault
  repeat' split
  all_goals exact ⟨rfl, rfl, rfl⟩

/-- Under the claim's hypotheses the variant-loop body marks the video format
`acodec = "none"` (the rendition-group audio linkage fires). -/
theorem buildVariantFormat_acodec_none (p : HlsParams)
    (g : List (String × List (List (String × String))))
    (lastInf : List (String × String)) (murl : String) (tbr : Option ℚ)
    (n : Nat) (idx : Option Nat) (c v a gid : String)
    (r : List (String × String)) (rs : List (List (String × String)))
    (hC : attrGet "CODECS" lastInf = some c)
    (hPC : parse_codecs (some c) = some (v, a))
    (hv : v ≠ "none")
    (hA : attrGet "AUDIO" lastInf = some gid) (hgid : gid ≠ "")
    (hG : groupsGet gid g = some (r :: rs))
    (hU : truthy (attrGet "URI" r) = true) :
    (buildVariantFormat p g lastInf murl tbr n idx).acodec = some "none" ∧
      (buildVariantFormat p g lastInf murl tbr n idx).vcodec = some v ∧
      (buildVariantFormat p g lastInf murl tbr n idx).url = murl := by
  unfold buildVariantFormat
  rw [hC, hPC]
  set f3 := updUsp (updResolution lastInf (updYtLanguage lastInf
    (baseVariantFormat p g lastInf murl tbr n idx))) with hf3
  have hurl : f3.url = murl := by
    rw [hf3, (updUsp_fields _).1, (updResolution_fields _ _).1, (updYtLanguage_fields _ _).1]
    rfl
  have h4 : (updCodecs (some (v, a)) f3).vcodec = some v ∧
      (updCodecs (some (v, a)) f3).acodec = some a ∧
      (updCodecs (some (v, a)) f3).url = murl := by
    refine ⟨rfl, rfl, ?_⟩
    simpa [updCodecs] using hurl
  set f4 := updCodecs (some (v, a)) f3 with hf4
  have h5 : (updAudioLink g lastInf (some (v, a)) f4).acodec = some "none" ∧
      (updAudioLink g lastInf (some (v, a)) f4).vcodec = some v ∧
      (updAudioLink g lastInf (some (v, a)) f4).url = murl := by
    unfold updAudioLink
    rw [hA]
    have hcond : (truthy (some gid) ∧ (some (v, a)).isSome = true ∧ f4.vcodec ≠ some "none") := by
      refine ⟨by simpa [truthy] using hgid, rfl, ?_⟩
      rw [h4.1]
      simpa using hv
    rw [if_pos hcond]
    simp only [Option.getD]
    rw [hG]
    dsimp only
    rw [if_pos hU]
    exact ⟨rfl, by simpa using h4.1, by simpa using h4.2.2⟩
  exact ⟨by rw [(updExtDefault_fields _).2.2]; exact h5.1,
    by rw [(updExtDefault_fields _).2.1]; exact h5.2.1,
    by rw [(updExtDefault_fields _).1]; exact h5.2.2⟩

end YtDlp

namespace YtDlp

theorem variantLoop_mem (p : HlsParams) (g : List (String × List (List (String × String))))
    (lastInf : List (String × String)) (murl : String) (tbr : Option ℚ) (f : HlsFormat) :
    ∀ (idxs : List (Option Nat)) (fmts : List HlsFormat),
      f ∈ fmts → f ∈ variantLoop p g lastInf murl tbr fmts idxs := by
  intro idxs
  induction idxs with
  | nil => intro fmts h; simpa [variantLoop] using h
  | cons idx rest ih =>
    intro fmts h
    rw [variantLoop]
    apply ih
    rcases attrGet "PROGRESSIVE-URI" lastInf with _ | prog
    · exact List.mem_append_left _ h
    · dsimp only
      split
      · exact List.mem_append_left _ (List.mem_append_left _ h)
      · exact List.mem_append_left _ h

theorem variantLoop_mem_build (p : HlsParams) (g : List (String × List (List (String × String))))
    (lastInf : List (String × String)) (murl : String) (tbr : Option ℚ)
    (fmts : List HlsFormat) (idx : Option Nat) (idxs : List (Option Nat)) :
    buildVariantFormat p g lastInf murl tbr fmts.length idx ∈
      variantLoop p g lastInf murl tbr fmts (idx :: idxs) := by
  rw [variantLoop]
  apply variantLoop_mem
  rcases attrGet "PROGRESSIVE-URI" lastInf with _ | prog
  · exact List.mem_append_right _ (List.mem_singleton.mpr rfl)
  · dsimp only
    split
    · exact List.mem_append_left _ (List.mem_append_right _ (List.mem_singleton.mpr rfl))
    · exact List.mem_append_right _ (List.mem_singleton.mpr rfl)

theorem variantStep_mem (p : HlsParams) (g : List (String × List (List (String × String))))
    (vs : VariantState) (line : List Char) (f : HlsFormat) (h : f ∈ vs.formats) :
    f ∈ (variantStep p g vs line).formats := by
  unfold variantStep
  split
  · exact h
  · split
    · exact h
    · exact variantLoop_mem _ _ _ _ _ _ _ _ h

theorem foldl_variantStep_mem (p : HlsParams) (g : List (String × List (List (String × String))))
    (lines : Doc) (f : HlsFormat) :
    ∀ vs : VariantState, f ∈ vs.formats → f ∈ (List.foldl (variantStep p g) vs lines).formats := by
  induction lines with
  | nil => intro vs h; simpa using h
  | cons line rest ih =>
    intro vs h
    rw [List.foldl_cons]
    exact ih _ (variantStep_mem _ _ _ _ _ h)

theorem streamInf_startsWith_hash (l : List Char)
    (h : startsWithL (cs "#EXT-X-STREAM-INF:") l = true) : startsWithL (cs "#") l = true := by
  cases l with
  | nil => simp [startsWithL, cs, List.isPrefixOf] at h
  | cons c rest =>
    simp only [startsWithL, cs, List.isPrefixOf, Bool.and_eq_true, beq_iff_eq] at h ⊢
    exact ⟨h.1, trivial⟩

end YtDlp

namespace YtDlp

/-- C6: For every master HLS playlist in which an `EXT-X-STREAM-INF` line
carries a `CODECS` attribute implying video (`vcodec` recognised and not the
`"none"` sentinel) and references an `AUDIO` rendition group whose first
rendition has a `URI`, the resulting video format has `acodec = "none"`. -/
theorem C6_hls_rendition_audio_linkage (p : HlsParams) (pre post : Doc)
    (infLine uriLine : List Char) (attrs : List (String × String))
    (c v a gid : String) (r : List (String × String)) (rs : List (List (String × String)))
    (hsd : p.splitDisc = false)
    (hmaster : docContains "#EXT-X-TARGETDURATION" (pre ++ [infLine] ++ [uriLine] ++ post) = false)
    (hInf : startsWithL (cs "#EXT-X-STREAM-INF:") infLine = true)
    (hAttrs : parse_m3u8_attributes (infLine.drop (cs "#EXT-X-STREAM-INF:").length) = attrs)
    (hu1 : startsWithL (cs "#") uriLine = false)
    (hu2 : (stripL uriLine).isEmpty = false)
    (hC : attrGet "CODECS" attrs = some c)
    (hPC : parse_codecs (some c) = some (v, a))
    (hv : v ≠ "none")
    (hA : attrGet "AUDIO" attrs = some gid) (hgid : gid ≠ "")
    (hG : groupsGet gid (masterPass1 p (pre ++ [infLine] ++ [uriLine] ++ post)).groups
      = some (r :: rs))
    (hU : truthy (attrGet "URI" r) = true) :
    ∃ f ∈ (parse_m3u8_formats_and_subtitles p (pre ++ [infLine] ++ [uriLine] ++ post)).1,
      f.acodec = some "none" ∧ f.vcodec = some v ∧
        f.url = format_url p.m3u8_url ⟨stripL uriLine⟩ := by
  have hnotinf : startsWithL (cs "#EXT-X-STREAM-INF:") uriLine = false := by
    cases h' : startsWithL (cs "#EXT-X-STREAM-INF:") uriLine
    · rfl
    · exact absurd (streamInf_startsWith_hash uriLine h') (by simp [hu1])
  have hbranch : parse_m3u8_formats_and_subtitles p (pre ++ [infLine] ++ [uriLine] ++ post)
      = parseMasterPlaylist p (pre ++ [infLine] ++ [uriLine] ++ post) := by
    unfold parse_m3u8_formats_and_subtitles
    rw [hmaster]
    rfl
  rw [hbranch, parseMasterPlaylist_eq]
  set g := (masterPass1 p (pre ++ [infLine] ++ [uriLine] ++ post)).groups with hg
  set vs0 : VariantState :=
    { lastInf := [], formats := (masterPass1 p (pre ++ [infLine] ++ [uriLine] ++ post)).formats }
    with hvs0
  set vs1 := List.foldl (variantStep p g) vs0 pre with hvs1
  set murl := format_url p.m3u8_url ⟨stripL uriLine⟩ with hmurl
  set tbr := floatScaled
    (orTruthy (attrGet "AVERAGE-BANDWIDTH" attrs) (attrGet "BANDWIDTH" attrs)) 1000 with htbr
  have hsplit : List.foldl (variantStep p g) vs0 (pre ++ [infLine] ++ [uriLine] ++ post)
      = List.foldl (variantStep p g) (variantStep p g (variantStep p g vs1 infLine) uriLine) post := by
    rw [List.foldl_append, List.foldl_append, List.foldl_append]
    rfl
  have hstep1 : variantStep p g vs1 infLine = { vs1 with lastInf := attrs } := by
    unfold variantStep
    rw [if_pos hInf, hAttrs]
  have hstep2 : variantStep p g { vs1 with lastInf := attrs } uriLine =
      { lastInf := [], formats := variantLoop p g attrs murl tbr vs1.formats [none] } := by
    unfold variantStep
    rw [if_neg (by simp [hnotinf]), if_neg (by simp [hu1, hu2]), hsd]
    rfl
  rw [hsplit, hstep1, hstep2]
  refine ⟨buildVariantFormat p g attrs murl tbr vs1.formats.length none, ?_, ?_⟩
  · exact foldl_variantStep_mem p g post _ _ (variantLoop_mem_build p g attrs murl tbr vs1.formats none [])
  · exact buildVariantFormat_acodec_none p g attrs murl tbr vs1.formats.length none c v a gid r rs
      hC hPC hv hA hgid hG hU

end YtDlp

namespace YtDlp

/-- Concrete parameters for the HLS claims. -/
def hlsP : HlsParams := { m3u8_url := some "http://x/v.m3u8", m3u8_id := some "hls" }

end YtDlp

namespace YtDlp

/-- The concrete master playlist of the C6 test. -/
def c6pre : Doc :=
  [cs "#EXTM3U",
   cs "#EXT-X-MEDIA:TYPE=AUDIO,GROUP-ID=\x22aud\x22,NAME=\x22English\x22,URI=\x22audio.m3u8\x22"]

/-- The C6 `EXT-X-STREAM-INF` line. -/
def c6inf : List Char :=
  cs "#EXT-X-STREAM-INF:BANDWIDTH=1280000,CODECS=\x22avc1.64001f,mp4a.40.2\x22,AUDIO=\x22aud\x22"

/-- The attributes of `c6inf`. -/
def c6attrs : List (String × String) :=
  [("BANDWIDTH", "1280000"), ("CODECS", "avc1.64001f,mp4a.40.2"), ("AUDIO", "aud")]

/-- The parsed rendition of the C6 AUDIO group. -/
def c6r : List (String × String) :=
  [("TYPE", "AUDIO"), ("GROUP-ID", "aud"), ("NAME", "English"), ("URI", "audio.m3u8")]

/-- C6 (witness): the linkage theorem applied to the spec's concrete master
playlist. -/
theorem C6_witness :
    ∃ f ∈ (parse_m3u8_formats_and_subtitles hlsP
        (c6pre ++ [c6inf] ++ [cs "video.m3u8"] ++ [])).1,
      f.acodec = some "none" ∧ f.vcodec = some "avc1.64001f" ∧
        f.url = format_url hlsP.m3u8_url ⟨stripL (cs "video.m3u8")⟩ :=
  C6_hls_rendition_audio_linkage hlsP c6pre [] c6inf (cs "video.m3u8") c6attrs
    "avc1.64001f,mp4a.40.2" "avc1.64001f" "mp4a.40.2" "aud" c6r []
    rfl (by decide) (by decide) (by decide) (by decide) (by decide) (by decide)
    (by decide) (by decide) (by decide) (by decide) (by decide) (by decide)

end YtDlp

namespace YtDlp

/-! ### DASH period merge: `_merge_mpd_periods`

DASH formats are Python dicts with dynamic key sets, modelled as
insertion-ordered association lists of string keys and `Val` values. -/

/-- One fragment dictionary of a DASH format. -/
structure Frag where
  url : Option String := none
  path : Option String := none
  duration : Option ℚ := none
  deriving Repr, DecidableEq

/-- A Python dict value occurring in a DASH format. -/
inductive Val where
  | s (v : String)
  | n (v : Int)
  | q (v : ℚ)
  | b (v : Bool)
  | nil
  | frags (v : List Frag)
  deriving Repr, DecidableEq

/-- A DASH format dict. -/
abbrev FormatD := List (String × Val)

/-- Python `key in dict`. -/
def dictHasKey (k : String) (f : FormatD) : Bool := f.any fun p => p.1 = k

/-- `f['fragments']` (first binding). -/
def getFragsVal (f : FormatD) : Option Val :=
  (f.find? fun p => p.1 = "fragments").map Prod.snd

/-- `f['is_dash_periods'] = True` — the marker appended by the merge. -/
def markF (f : FormatD) : FormatD := f ++ [("is_dash_periods", Val.b true)]

/-- `tuple(v for k, v in f.items() if k not in (...))`: the merge key is the
tuple of the VALUES of the non-excluded keys, in dict insertion order. -/
def format_key (f : FormatD) : List Val :=
  (f.filter fun p =>
    ¬ (p.1 = "format_id" ∨ p.1 = "fragments" ∨ p.1 = "manifest_stream_number")).map Prod.snd

/-- `formats[format_key].setdefault('fragments', []).extend(f['fragments'])`;
`Except.error` models the `TypeError` of extending a non-list value. -/
def extendFragments : FormatD → List Frag → Except String FormatD
  | [], nf => .ok [("fragments", Val.frags nf)]
  | (k, v) :: rest, nf =>
    if k = "fragments" then
      match v with
      | Val.frags l => .ok ((k, Val.frags (l ++ nf)) :: rest)
      | _ => .error "TypeError"
    else (extendFragments rest nf).map fun r => (k, v) :: r

/-- The merge's `formats` dict: merge key → stored format. -/
abbrev MergeDict := List (List Val × FormatD)

/-- `formats.get(format_key)`. -/
def mergeLookup (k : List Val) (d : MergeDict) : Option FormatD :=
  (d.find? fun p => p.1 = k).map Prod.snd

/-- Replace the value stored at a merge key. -/
def mergeUpdate (k : List Val) (g : FormatD) : MergeDict → MergeDict
  | [] => []
  | (k', g') :: rest =>
    if k' = k then (k', g) :: rest else (k', g') :: mergeUpdate k g rest

/-- One format of one period: the `assert`/mark/group/extend body of the
`for f in period['formats']` loop. -/
def mergeFormatStep (d : MergeDict) (f : FormatD) : Except String MergeDict :=
  if dictHasKey "is_dash_periods" f then .error "format already processed"
  else
    match mergeLookup (format_key (markF f)) d with
    | none => .ok (d ++ [(format_key (markF f), markF f)])
    | some g =>
      if dictHasKey "fragments" (markF f) then
        match getFragsVal (markF f) with
        | some (Val.frags nf) =>
          (extendFragments g nf).map fun g' => mergeUpdate (format_key (markF f)) g' d
        | _ => .error "TypeError"
      else .ok d

/-- DASH subtitles per language are lists of format-like dicts. -/
abbrev SubsD := List (String × List FormatD)

/-- `subtitles.setdefault(lang, []).extend(sub_info)`. -/
def subsPExtend (lang : String) (info : List FormatD) : SubsD → SubsD
  | [] => [(lang, info)]
  | (l, is) :: rest =>
    if l = lang then (l, is ++ info) :: rest else (l, is) :: subsPExtend lang info rest

/-- One parsed DASH period (`period_entry`). -/
structure PeriodEntry where
  id : String := ""
  formats : List FormatD := []
  subtitlesP : SubsD := []

/-- One period of `_merge_mpd_periods` (the multi-period subtitle warning is a
log side effect and is not modelled). -/
def mergePeriodStep (acc : MergeDict × SubsD) (period : PeriodEntry) :
    Except String (MergeDict × SubsD) := do
  let d ← period.formats.foldlM mergeFormatStep acc.1
  return (d, period.subtitlesP.foldl (fun s p => subsPExtend p.1 p.2 s) acc.2)

/-- `_merge_mpd_periods`: `(list(formats.values()), subtitles)`. -/
def merge_mpd_periods (periods : List PeriodEntry) :
    Except String (List FormatD × SubsD) := do
  let r ← periods.foldlM mergePeriodStep ([], [])
  return (r.1.map Prod.snd, r.2)

end YtDlp


namespace YtDlp

theorem exPure_eq {α : Type} (a : α) : (pure a : Except String α) = Except.ok a := rfl

theorem exBind_ok {α β : Type} (a : α) (k : α → Except String β) :
    (Except.ok a >>= k) = k a := rfl

theorem exBind_err {α β : Type} (e : String) (k : α → Except String β) :
    ((Except.error e : Except String α) >>= k) = Except.error e := rfl

theorem exMap_ok {α β : Type} (a : α) (k : α → β) :
    (Except.map k (Except.ok a : Except String α)) = Except.ok (k a) := rfl

theorem exMap_err {α β : Type} (e : String) (k : α → β) :
    (Except.map k (Except.error e : Except String α)) = Except.error e := rfl

theorem dictHasKey_markF (f : FormatD) : dictHasKey "is_dash_periods" (markF f) = true := by
  simp [dictHasKey, markF]

theorem extendFragments_keys (nf : List Frag) (m : String) (hm : m ≠ "fragments") :
    ∀ (g g' : FormatD), extendFragments g nf = .ok g' →
      dictHasKey m g' = dictHasKey m g := by
  intro g
  induction g with
  | nil =>
    intro g' h
    simp only [extendFragments, Except.ok.injEq] at h
    subst h
    simp [dictHasKey, hm.symm]
  | cons e rest ih =>
    intro g' h
    obtain ⟨k, v⟩ := e
    by_cases hk : k = "fragments"
    · subst hk
      simp only [extendFragments, if_true] at h
      cases v with
      | frags l =>
        simp only [Except.ok.injEq] at h
        subst h
        simp [dictHasKey]
      | s v => simp at h
      | n v => simp at h
      | q v => simp at h
      | b v => simp at h
      | nil => simp at h
    · simp only [extendFragments, if_neg hk] at h
      cases he : extendFragments rest nf with
      | error e => rw [he, exMap_err] at h; simp at h
      | ok r =>
        rw [he, exMap_ok] at h
        simp only [Except.ok.injEq] at h
        subst h
        have h2 := ih r he
        simp only [dictHasKey] at h2
        simp [dictHasKey, h2]

theorem mergeLookup_mem (k : List Val) (d : MergeDict) (g : FormatD)
    (h : mergeLookup k d = some g) : (k, g) ∈ d := by
  unfold mergeLookup at h
  cases hf : d.find? (fun p => p.1 = k) with
  | none => rw [hf] at h; simp at h
  | some e =>
    rw [hf] at h
    simp only [Option.map_some', Option.some.injEq] at h
    have hm := List.mem_of_find?_eq_some hf
    have hp := List.find?_some hf
    simp only [decide_eq_true_eq] at hp
    obtain ⟨e1, e2⟩ := e
    cases hp
    cases h
    exact hm

theorem mem_mergeUpdate (k : List Val) (g : FormatD) :
    ∀ (d : MergeDict) (e : List Val × FormatD), e ∈ mergeUpdate k g d →
      e ∈ d ∨ e = (k, g) := by
  intro d
  induction d with
  | nil => intro e h; simp [mergeUpdate] at h
  | cons e0 rest ih =>
    intro e h
    obtain ⟨k0, g0⟩ := e0
    by_cases hk : k0 = k
    · subst hk
      rw [mergeUpdate, if_pos rfl] at h
      rcases List.mem_cons.mp h with h | h
      · right; rw [h]
      · left; exact List.mem_cons_of_mem _ h
    · rw [mergeUpdate, if_neg hk] at h
      rcases List.mem_cons.mp h with h | h
      · left; rw [h]; exact List.mem_cons_self _ _
      · rcases ih e h with h' | h'
        · left; exact List.mem_cons_of_mem _ h'
        · right; exact h'

theorem mergeFormatStep_inv (d : MergeDict) (f : FormatD) (d' : MergeDict)
    (hd : ∀ e ∈ d, dictHasKey "is_dash_periods" e.2 = true)
    (h : mergeFormatStep d f = .ok d') :
    ∀ e ∈ d', dictHasKey "is_dash_periods" e.2 = true := by
  unfold mergeFormatStep at h
  by_cases hassert : dictHasKey "is_dash_periods" f = true
  · rw [if_pos hassert] at h
    exact absurd h (by simp)
  · rw [if_neg hassert] at h
    cases hl : mergeLookup (format_key (markF f)) d with
    | none =>
      rw [hl] at h
      simp only [Except.ok.injEq] at h
      subst h
      intro e he
      rcases List.mem_append.mp he with he | he
      · exact hd e he
      · simp only [List.mem_singleton] at he
        rw [he]
        exact dictHasKey_markF f
    | some g =>
      rw [hl] at h
      dsimp only at h
      by_cases hfr : dictHasKey "fragments" (markF f) = true
      · rw [if_pos hfr] at h
        cases hfv : getFragsVal (markF f) with
        | none =>
          rw [hfv] at h
          exact absurd h (by simp)
        | some v =>
          rw [hfv] at h
          cases v with
          | frags nf =>
            dsimp only at h
            cases hx : extendFragments g nf with
            | error e => rw [hx, exMap_err] at h; simp at h
            | ok g' =>
              rw [hx, exMap_ok] at h
              simp only [Except.ok.injEq] at h
              subst h
              intro e he
              rcases mem_mergeUpdate _ _ _ _ he with h' | h'
              · exact hd e h'
              · rw [h']
                have hg : dictHasKey "is_dash_periods" g = true :=
                  hd _ (mergeLookup_mem _ _ _ hl)
                rw [extendFragments_keys nf _ (by simp) g g' hx]
                exact hg
          | s v => simp at h
          | n v => simp at h
          | q v => simp at h
          | b v => simp at h
          | nil => simp at h
      · rw [if_neg hfr] at h
        simp only [Except.ok.injEq] at h
        subst h
        exact hd

theorem foldlM_mergeFormatStep_inv (fl : List FormatD) :
    ∀ (d d' : MergeDict), (∀ e ∈ d, dictHasKey "is_dash_periods" e.2 = true) →
      List.foldlM mergeFormatStep d fl = .ok d' →
      ∀ e ∈ d', dictHasKey "is_dash_periods" e.2 = true := by
  induction fl with
  | nil =>
    intro d d' hd h
    rw [List.foldlM_nil, exPure_eq] at h
    cases h
    exact hd
  | cons f rest ih =>
    intro d d' hd h
    rw [List.foldlM_cons] at h
    cases hs : mergeFormatStep d f with
    | error e => rw [hs, exBind_err] at h; simp at h
    | ok d1 =>
      rw [hs, exBind_ok] at h
      exact ih d1 d' (mergeFormatStep_inv d f d1 hd hs) h

theorem foldlM_mergePeriodStep_inv (ps : List PeriodEntry) :
    ∀ (acc : MergeDict × SubsD) (r : MergeDict × SubsD),
      (∀ e ∈ acc.1, dictHasKey "is_dash_periods" e.2 = true) →
      List.foldlM mergePeriodStep acc ps = .ok r →
      ∀ e ∈ r.1, dictHasKey "is_dash_periods" e.2 = true := by
  induction ps with
  | nil =>
    intro acc r hd h
    rw [List.foldlM_nil, exPure_eq] at h
    cases h
    exact hd
  | cons per rest ih =>
    intro acc r hd h
    rw [List.foldlM_cons] at h
    cases hs : mergePeriodStep acc per with
    | error e => rw [hs, exBind_err] at h; simp at h
    | ok acc1 =>
      rw [hs, exBind_ok] at h
      refine ih acc1 r ?_ h
      unfold mergePeriodStep at hs
      cases hf : per.formats.foldlM mergeFormatStep acc.1 with
      | error e => rw [hf, exBind_err] at hs; simp at hs
      | ok d1 =>
        rw [hf, exBind_ok, exPure_eq] at hs
        cases hs
        exact foldlM_mergeFormatStep_inv per.formats acc.1 d1 hd hf

end YtDlp

namespace YtDlp

/-- C2 (amended): merging is not idempotent — it is rejected.  Every format in
a successfully merged output carries the `is_dash_periods` marker, and feeding
an already-merged (non-empty) format list back into `_merge_mpd_periods`
trips the `assert 'is_dash_periods' not in f` guard (`AssertionError:
format already processed`) instead of returning the same set. -/
theorem C2_period_merge_rejects_remerge (ps : List PeriodEntry) (fs : List FormatD)
    (subs : SubsD) (f0 : FormatD) (rest : List FormatD) (rid1 rid2 : String)
    (h : merge_mpd_periods ps = .ok (fs, subs)) (hfs : fs = f0 :: rest) :
    dictHasKey "is_dash_periods" f0 = true ∧
    merge_mpd_periods [{ id := rid1, formats := fs }, { id := rid2, formats := fs }]
      = .error "format already processed" := by
  unfold merge_mpd_periods at h
  cases hr : List.foldlM mergePeriodStep ([], []) ps with
  | error e => rw [hr, exBind_err] at h; simp at h
  | ok r =>
    rw [hr, exBind_ok, exPure_eq] at h
    simp only [Except.ok.injEq, Prod.mk.injEq] at h
    have hmem : f0 ∈ r.1.map Prod.snd := by
      rw [h.1, hfs]
      exact List.mem_cons_self _ _
    obtain ⟨e, hemem, he⟩ := List.mem_map.mp hmem
    have hmarker : dictHasKey "is_dash_periods" f0 = true := by
      rw [← he]
      exact foldlM_mergePeriodStep_inv ps ([], []) r (by simp) hr e hemem
    refine ⟨hmarker, ?_⟩
    have hstep : mergeFormatStep [] f0 = .error "format already processed" := by
      rw [mergeFormatStep, if_pos hmarker]
    unfold merge_mpd_periods mergePeriodStep
    simp only [hfs, List.foldlM_cons, hstep, exBind_err]

/-- A fresh single-period input for the C2/C3 merge claims. -/
def c2period : PeriodEntry :=
  { id := "p0",
    formats := [[("ext", Val.s "mp4"),
                 ("fragments", Val.frags [{ url := some "frag1.mp4" }])]] }

/-- The output of merging `c2period` once: the format is marked. -/
def c2merged : List FormatD :=
  [[("ext", Val.s "mp4"),
    ("fragments", Val.frags [{ url := some "frag1.mp4" }]),
    ("is_dash_periods", Val.b true)]]

/-- C2 (counterexample): merging a merged output with itself does not return
the same format set — it raises (`assert 'is_dash_periods' not in f`,
"format already processed"). -/
theorem C2_counterexample :
    merge_mpd_periods [c2period] = .ok (c2merged, []) ∧
    merge_mpd_periods [{ id := "r0", formats := c2merged }, { id := "r1", formats := c2merged }]
      = .error "format already processed" := ⟨rfl, rfl⟩

/-- C2 (witness): the amended theorem applied to the concrete merged output. -/
theorem C2_witness :
    dictHasKey "is_dash_periods"
      [("ext", Val.s "mp4"),
       ("fragments", Val.frags [{ url := some "frag1.mp4" }]),
       ("is_dash_periods", Val.b true)] = true ∧
    merge_mpd_periods [{ id := "w0", formats := c2merged }, { id := "w1", formats := c2merged }]
      = .error "format already processed" :=
  C2_period_merge_rejects_remerge [c2period] c2merged [] _ [] "w0" "w1" rfl rfl

end YtDlp

namespace YtDlp

/-- The fragment list carried by a `Val` (empty for non-lists). -/
def fragsOfVal : Val → List Frag
  | Val.frags l => l
  | _ => []

/-- The fragment list of a format (empty when absent). -/
def fragsOf (f : FormatD) : List Frag := ((getFragsVal f).map fragsOfVal).getD []

/-- Well-typedness of the `fragments` entry: absent, or a fragment list. -/
def fragsOk (f : FormatD) : Bool :=
  match getFragsVal f with
  | none => true
  | some (Val.frags _) => true
  | some _ => false

/-- Total `setdefault('fragments', []).extend(nf)` (agrees with
`extendFragments` on frags-typed dicts). -/
def extendFragsT : FormatD → List Frag → FormatD
  | [], nf => [("fragments", Val.frags nf)]
  | (k, v) :: rest, nf =>
    if k = "fragments" then (k, Val.frags (fragsOfVal v ++ nf)) :: rest
    else (k, v) :: extendFragsT rest nf

/-- Absorb one later group member into the kept format: extend the kept
fragments by the member's when the member carries a `fragments` key. -/
def absorbT (g f : FormatD) : FormatD :=
  if dictHasKey "fragments" f then extendFragsT g (fragsOf f) else g

/-- The output format of one merge group: the first member (marked), extended
by every later member in input order. -/
def combineSpec : Option FormatD → List FormatD → Option FormatD
  | none, [] => none
  | none, f :: rest => some (rest.foldl absorbT (markF f))
  | some g, l => some (l.foldl absorbT g)

/-- The per-period subtitle merge. -/
def subsFoldP (s : SubsD) (per : PeriodEntry) : SubsD :=
  per.subtitlesP.foldl (fun s2 p => subsPExtend p.1 p.2 s2) s

theorem getFragsVal_markF (f : FormatD) : getFragsVal (markF f) = getFragsVal f := by
  unfold getFragsVal markF
  rw [List.find?_append]
  cases List.find? (fun p => p.1 = "fragments") f with
  | none => simp
  | some e => simp

theorem dictHasKey_markF_fragments (f : FormatD) :
    dictHasKey "fragments" (markF f) = dictHasKey "fragments" f := by
  simp [dictHasKey, markF]

theorem extendFragments_ok (nf : List Frag) :
    ∀ g : FormatD, fragsOk g = true → extendFragments g nf = .ok (extendFragsT g nf) := by
  intro g
  induction g with
  | nil => intro _; rfl
  | cons e rest ih =>
    intro hok
    obtain ⟨k, v⟩ := e
    by_cases hk : k = "fragments"
    · subst hk
      have hv : ∃ l, v = Val.frags l := by
        cases v with
        | frags l => exact ⟨l, rfl⟩
        | s x => simp [fragsOk, getFragsVal] at hok
        | n x => simp [fragsOk, getFragsVal] at hok
        | q x => simp [fragsOk, getFragsVal] at hok
        | b x => simp [fragsOk, getFragsVal] at hok
        | nil => simp [fragsOk, getFragsVal] at hok
      obtain ⟨l, rfl⟩ := hv
      simp [extendFragments, extendFragsT, fragsOfVal]
    · have hok' : fragsOk rest = true := by
        unfold fragsOk getFragsVal at hok ⊢
        simpa [List.find?_cons, hk] using hok
      simp [extendFragments, extendFragsT, hk, ih hok', exMap_ok]

theorem format_key_cons (e : String × Val) (l : FormatD) :
    format_key (e :: l) =
      if e.1 = "format_id" ∨ e.1 = "fragments" ∨ e.1 = "manifest_stream_number" then
        format_key l
      else e.2 :: format_key l := by
  by_cases hp : e.1 = "format_id" ∨ e.1 = "fragments" ∨ e.1 = "manifest_stream_number"
  · rw [if_pos hp]
    unfold format_key
    rw [List.filter_cons, if_neg (by simp [hp])]
  · rw [if_neg hp]
    unfold format_key
    rw [List.filter_cons, if_pos (by simpa using hp), List.map_cons]

theorem format_key_extendFragsT (nf : List Frag) :
    ∀ g : FormatD, format_key (extendFragsT g nf) = format_key g := by
  intro g
  induction g with
  | nil => simp [extendFragsT, format_key]
  | cons e rest ih =>
    obtain ⟨k, v⟩ := e
    by_cases hk : k = "fragments"
    · subst hk
      simp [extendFragsT, format_key_cons]
    · simp only [extendFragsT, if_neg hk]
      rw [format_key_cons, format_key_cons]
      by_cases hp : k = "format_id" ∨ k = "fragments" ∨ k = "manifest_stream_number"
      · simp only [hp, if_pos]
        exact ih
      · simp only [hp, if_neg, ih]

theorem fragsOk_extendFragsT (nf : List Frag) :
    ∀ g : FormatD, fragsOk (extendFragsT g nf) = true := by
  intro g
  induction g with
  | nil => rfl
  | cons e rest ih =>
    obtain ⟨k, v⟩ := e
    by_cases hk : k = "fragments"
    · subst hk
      simp [extendFragsT, fragsOk, getFragsVal]
    · simp only [extendFragsT, if_neg hk]
      unfold fragsOk getFragsVal at ih ⊢
      simpa [List.find?_cons, hk] using ih

theorem fragsOk_markF (f : FormatD) : fragsOk (markF f) = fragsOk f := by
  unfold fragsOk
  rw [getFragsVal_markF]

theorem format_key_absorbT (g f : FormatD) : format_key (absorbT g f) = format_key g := by
  unfold absorbT
  split
  · exact format_key_extendFragsT _ g
  · rfl

theorem fragsOk_absorbT (g f : FormatD) (h : fragsOk g = true) :
    fragsOk (absorbT g f) = true := by
  unfold absorbT
  split
  · exact fragsOk_extendFragsT _ g
  · exact h

end YtDlp

namespace YtDlp

theorem mergeLookup_cons_eq (k : List Val) (g0 : FormatD) (d : MergeDict) :
    mergeLookup k ((k, g0) :: d) = some g0 := by
  simp [mergeLookup, List.find?_cons]

theorem mergeLookup_cons_ne (k k0 : List Val) (g0 : FormatD) (d : MergeDict) (hk : k0 ≠ k) :
    mergeLookup k ((k0, g0) :: d) = mergeLookup k d := by
  simp [mergeLookup, List.find?_cons, hk]

theorem mergeLookup_find_none (k : List Val) (d : MergeDict) (h : mergeLookup k d = none) :
    d.find? (fun p => p.1 = k) = none := by
  unfold mergeLookup at h
  cases hf : d.find? (fun p => p.1 = k) with
  | none => rfl
  | some e => rw [hf] at h; simp at h

theorem mergeLookup_append_none (k k0 : List Val) (g0 : FormatD) (d : MergeDict)
    (h : mergeLookup k d = none) :
    mergeLookup k (d ++ [(k0, g0)]) = if k0 = k then some g0 else none := by
  unfold mergeLookup
  rw [List.find?_append, mergeLookup_find_none k d h]
  by_cases hk : k0 = k
  · simp [List.find?_cons, hk]
  · simp [List.find?_cons, hk]

theorem mergeLookup_append_some (k : List Val) (d : MergeDict) (g : FormatD) (l : MergeDict)
    (h : mergeLookup k d = some g) : mergeLookup k (d ++ l) = some g := by
  unfold mergeLookup at h ⊢
  rw [List.find?_append]
  cases hf : d.find? (fun p => p.1 = k) with
  | none => rw [hf] at h; simp at h
  | some e => rw [hf] at h; simpa using h

theorem mergeLookup_update_self (k : List Val) (g : FormatD) :
    ∀ d : MergeDict, mergeLookup k d ≠ none →
      mergeLookup k (mergeUpdate k g d) = some g := by
  intro d
  induction d with
  | nil => intro h; simp [mergeLookup] at h
  | cons e rest ih =>
    intro h
    obtain ⟨k0, g0⟩ := e
    by_cases hk : k0 = k
    · rw [mergeUpdate, if_pos hk]
      subst hk
      exact mergeLookup_cons_eq k0 g rest
    · rw [mergeUpdate, if_neg hk, mergeLookup_cons_ne _ _ _ _ hk]
      rw [mergeLookup_cons_ne _ _ _ _ hk] at h
      exact ih h

theorem mergeLookup_update_ne (k k0 : List Val) (g : FormatD) (hk : k ≠ k0) :
    ∀ d : MergeDict, mergeLookup k (mergeUpdate k0 g d) = mergeLookup k d := by
  intro d
  induction d with
  | nil => simp [mergeUpdate]
  | cons e rest ih =>
    obtain ⟨k1, g1⟩ := e
    by_cases hk1 : k1 = k0
    · rw [mergeUpdate, if_pos hk1]
      subst hk1
      rw [mergeLookup_cons_ne _ _ _ _ (Ne.symm hk), mergeLookup_cons_ne _ _ _ _ (Ne.symm hk)]
    · rw [mergeUpdate, if_neg hk1]
      by_cases hk2 : k1 = k
      · subst hk2
        rw [mergeLookup_cons_eq, mergeLookup_cons_eq]
      · rw [mergeLookup_cons_ne _ _ _ _ hk2, mergeLookup_cons_ne _ _ _ _ hk2]
        exact ih

theorem mergeUpdate_map_fst (k : List Val) (g : FormatD) :
    ∀ d : MergeDict, (mergeUpdate k g d).map Prod.fst = d.map Prod.fst := by
  intro d
  induction d with
  | nil => rfl
  | cons e rest ih =>
    obtain ⟨k0, g0⟩ := e
    by_cases hk : k0 = k
    · rw [mergeUpdate, if_pos hk]
      simp [hk]
    · rw [mergeUpdate, if_neg hk]
      simp [ih]

theorem mergeLookup_none_not_mem (k : List Val) (d : MergeDict)
    (h : mergeLookup k d = none) : k ∉ d.map Prod.fst := by
  intro hmem
  obtain ⟨e, he, hfst⟩ := List.mem_map.mp hmem
  have := List.find?_eq_none.mp (mergeLookup_find_none k d h) e he
  simp [hfst] at this

theorem getFragsVal_frags_of_hasKey (f : FormatD)
    (hk : dictHasKey "fragments" f = true) (hok : fragsOk f = true) :
    getFragsVal f = some (Val.frags (fragsOf f)) := by
  have hsome : (f.find? (fun p => p.1 = "fragments")).isSome = true := by
    rw [List.find?_isSome]
    obtain ⟨e, he, hp⟩ := List.any_eq_true.mp hk
    exact ⟨e, he, hp⟩
  cases hfv : getFragsVal f with
  | none =>
    unfold getFragsVal at hfv
    cases hf : f.find? (fun p => p.1 = "fragments") with
    | none => rw [hf] at hsome; simp at hsome
    | some e => rw [hf] at hfv; simp at hfv
  | some v =>
    cases v with
    | frags l => simp [fragsOf, hfv, fragsOfVal]
    | s x => unfold fragsOk at hok; rw [hfv] at hok; simp at hok
    | n x => unfold fragsOk at hok; rw [hfv] at hok; simp at hok
    | q x => unfold fragsOk at hok; rw [hfv] at hok; simp at hok
    | b x => unfold fragsOk at hok; rw [hfv] at hok; simp at hok
    | nil => unfold fragsOk at hok; rw [hfv] at hok; simp at hok

/-- The successful result of one `mergeFormatStep` on well-typed input. -/
def stepT (d : MergeDict) (f : FormatD) : MergeDict :=
  match mergeLookup (format_key (markF f)) d with
  | none => d ++ [(format_key (markF f), markF f)]
  | some g =>
    if dictHasKey "fragments" f then
      mergeUpdate (format_key (markF f)) (absorbT g f) d
    else d

theorem stepT_none (d : MergeDict) (f : FormatD)
    (hl : mergeLookup (format_key (markF f)) d = none) :
    stepT d f = d ++ [(format_key (markF f), markF f)] := by
  unfold stepT
  rw [hl]

theorem stepT_some_frag (d : MergeDict) (f g : FormatD)
    (hl : mergeLookup (format_key (markF f)) d = some g)
    (hfr : dictHasKey "fragments" f = true) :
    stepT d f = mergeUpdate (format_key (markF f)) (absorbT g f) d := by
  unfold stepT
  rw [hl]
  dsimp only
  rw [if_pos hfr]

theorem stepT_some_nofrag (d : MergeDict) (f g : FormatD)
    (hl : mergeLookup (format_key (markF f)) d = some g)
    (hfr : dictHasKey "fragments" f = false) :
    stepT d f = d := by
  unfold stepT
  rw [hl]
  dsimp only
  rw [if_neg (by simp [hfr])]

theorem mergeFormatStep_ok (d : MergeDict) (f : FormatD)
    (hm : dictHasKey "is_dash_periods" f = false) (hf : fragsOk f = true)
    (hI : ∀ e ∈ d, fragsOk e.2 = true) :
    mergeFormatStep d f = .ok (stepT d f) := by
  unfold mergeFormatStep
  rw [if_neg (by simp [hm])]
  cases hl : mergeLookup (format_key (markF f)) d with
  | none => rw [stepT_none d f hl]
  | some g =>
    cases hfr : dictHasKey "fragments" f with
    | false =>
      rw [stepT_some_nofrag d f g hl hfr]
      dsimp only
      rw [if_neg (by simp [dictHasKey_markF_fragments, hfr])]
    | true =>
      rw [stepT_some_frag d f g hl hfr]
      dsimp only
      rw [if_pos (by simp [dictHasKey_markF_fragments, hfr]), getFragsVal_markF,
        getFragsVal_frags_of_hasKey f hfr hf]
      dsimp only
      have hgok : fragsOk g = true := hI _ (mergeLookup_mem _ _ _ hl)
      rw [extendFragments_ok (fragsOf f) g hgok, exMap_ok]
      unfold absorbT
      rw [if_pos hfr]

theorem combineSpec_nil (o : Option FormatD) : combineSpec o [] = o := by
  cases o <;> rfl

end YtDlp

namespace YtDlp

theorem mergeFold_char :
    ∀ (fl : List FormatD) (d : MergeDict),
      (∀ f ∈ fl, fragsOk f = true ∧ dictHasKey "is_dash_periods" f = false) →
      (∀ e ∈ d, format_key e.2 = e.1 ∧ fragsOk e.2 = true) →
      (d.map Prod.fst).Nodup →
      ∃ d', List.foldlM mergeFormatStep d fl = .ok d' ∧
        (∀ e ∈ d', format_key e.2 = e.1 ∧ fragsOk e.2 = true) ∧
        (d'.map Prod.fst).Nodup ∧
        ∀ k, mergeLookup k d' =
          combineSpec (mergeLookup k d) (fl.filter fun f => format_key (markF f) = k) := by
  intro fl
  induction fl with
  | nil =>
    intro d _ hI hN
    refine ⟨d, by rw [List.foldlM_nil, exPure_eq], hI, hN, fun k => ?_⟩
    rw [List.filter_nil, combineSpec_nil]
  | cons f rest ih =>
    intro d hw hI hN
    have hf := hw f (List.mem_cons_self _ _)
    have hw' : ∀ f' ∈ rest, fragsOk f' = true ∧ dictHasKey "is_dash_periods" f' = false :=
      fun f' hf' => hw f' (List.mem_cons_of_mem _ hf')
    have hstep := mergeFormatStep_ok d f hf.2 hf.1 (fun e he => (hI e he).2)
    have hI1 : ∀ e ∈ stepT d f, format_key e.2 = e.1 ∧ fragsOk e.2 = true := by
      cases hl : mergeLookup (format_key (markF f)) d with
      | none =>
        rw [stepT_none d f hl]
        intro e he
        rcases List.mem_append.mp he with he | he
        · exact hI e he
        · simp only [List.mem_singleton] at he
          subst he
          exact ⟨rfl, by rw [fragsOk_markF]; exact hf.1⟩
      | some g =>
        cases hfr : dictHasKey "fragments" f with
        | false =>
          rw [stepT_some_nofrag d f g hl hfr]
          exact hI
        | true =>
          rw [stepT_some_frag d f g hl hfr]
          intro e he
          rcases mem_mergeUpdate _ _ _ _ he with he | he
          · exact hI e he
          · subst he
            have hg := hI _ (mergeLookup_mem _ _ _ hl)
            exact ⟨by rw [format_key_absorbT]; exact hg.1,
              fragsOk_absorbT g f hg.2⟩
    have hN1 : ((stepT d f).map Prod.fst).Nodup := by
      cases hl : mergeLookup (format_key (markF f)) d with
      | none =>
        rw [stepT_none d f hl]
        rw [List.map_append]
        rw [List.nodup_append]
        refine ⟨hN, by simp, ?_⟩
        intro a ha hb
        simp only [List.map_cons, List.map_nil, List.mem_singleton] at hb
        subst hb
        exact mergeLookup_none_not_mem _ _ hl ha
      | some g =>
        cases hfr : dictHasKey "fragments" f with
        | false => rw [stepT_some_nofrag d f g hl hfr]; exact hN
        | true => rw [stepT_some_frag d f g hl hfr, mergeUpdate_map_fst]; exact hN
    obtain ⟨d', hfold, hI', hN', hchar⟩ := ih (stepT d f) hw' hI1 hN1
    refine ⟨d', ?_, hI', hN', ?_⟩
    · rw [List.foldlM_cons, hstep, exBind_ok]
      exact hfold
    · intro k
      rw [hchar k, List.filter_cons]
      by_cases hk : format_key (markF f) = k
      · rw [if_pos (by simpa using hk)]
        subst hk
        cases hl : mergeLookup (format_key (markF f)) d with
        | none =>
          have h1 : mergeLookup (format_key (markF f)) (stepT d f) = some (markF f) := by
            rw [stepT_none d f hl, mergeLookup_append_none _ _ _ _ hl, if_pos rfl]
          rw [h1]
          rfl
        | some g =>
          cases hfr : dictHasKey "fragments" f with
          | false =>
            have h1 : mergeLookup (format_key (markF f)) (stepT d f) = some g := by
              rw [stepT_some_nofrag d f g hl hfr]
              exact hl
            rw [h1]
            show some (List.foldl absorbT g _) = some (List.foldl absorbT g _)
            rw [List.foldl_cons]
            unfold absorbT
            rw [if_neg (by simp [hfr])]
          | true =>
            have h1 : mergeLookup (format_key (markF f)) (stepT d f) = some (absorbT g f) := by
              rw [stepT_some_frag d f g hl hfr]
              exact mergeLookup_update_self _ _ d (by rw [hl]; simp)
            rw [h1]
            show some (List.foldl absorbT (absorbT g f) _) = some (List.foldl absorbT g _)
            rw [List.foldl_cons]
      · rw [if_neg (by simpa using hk)]
        have h1 : mergeLookup k (stepT d f) = mergeLookup k d := by
          cases hl : mergeLookup (format_key (markF f)) d with
          | none =>
            rw [stepT_none d f hl]
            cases hlk : mergeLookup k d with
            | none => rw [mergeLookup_append_none _ _ _ _ hlk, if_neg hk]
            | some g => rw [mergeLookup_append_some _ _ _ _ hlk]
          | some g =>
            cases hfr : dictHasKey "fragments" f with
            | false => rw [stepT_some_nofrag d f g hl hfr]
            | true =>
              rw [stepT_some_frag d f g hl hfr]
              exact mergeLookup_update_ne _ _ _ (fun h => hk h.symm) d
        rw [h1]

end YtDlp

namespace YtDlp

theorem foldlM_periods_flat :
    ∀ (ps : List PeriodEntry) (acc : MergeDict × SubsD),
      List.foldlM mergePeriodStep acc ps
        = (List.foldlM mergeFormatStep acc.1 (ps.flatMap fun per => per.formats)).map
            (fun d => (d, ps.foldl subsFoldP acc.2)) := by
  intro ps
  induction ps with
  | nil =>
    intro acc
    rw [List.foldlM_nil, List.flatMap_nil, List.foldlM_nil, List.foldl_nil, exPure_eq,
      exPure_eq, exMap_ok]
  | cons per rest ih =>
    intro acc
    rw [List.foldlM_cons, List.flatMap_cons, List.foldlM_append, List.foldl_cons]
    cases hd : List.foldlM mergeFormatStep acc.1 per.formats with
    | error e =>
      have hps : mergePeriodStep acc per = .error e := by
        unfold mergePeriodStep
        rw [hd, exBind_err]
      rw [hps, exBind_err, exBind_err, exMap_err]
    | ok d1 =>
      have hps : mergePeriodStep acc per = .ok (d1, subsFoldP acc.2 per) := by
        unfold mergePeriodStep
        rw [hd, exBind_ok, exPure_eq]
        rfl
      rw [hps, exBind_ok, exBind_ok]
      exact ih (d1, subsFoldP acc.2 per)

/-- The non-excluded attribute entries of a format — "the full attribute set
excluding `format_id`, `fragments`, `manifest_stream_number`" of the claim. -/
def nonExcludedAttrs (f : FormatD) : List (String × Val) :=
  f.filter fun p =>
    ¬ (p.1 = "format_id" ∨ p.1 = "fragments" ∨ p.1 = "manifest_stream_number")

theorem map_snd_find (k : List Val) :
    ∀ d : MergeDict, (∀ e ∈ d, format_key e.2 = e.1) →
      (d.map Prod.snd).find? (fun g => format_key g = k) = mergeLookup k d := by
  intro d
  induction d with
  | nil => intro _; rfl
  | cons e rest ih =>
    intro hI
    obtain ⟨k0, g0⟩ := e
    have hk0 : format_key g0 = k0 := hI _ (List.mem_cons_self _ _)
    by_cases hk : k0 = k
    · subst hk
      rw [List.map_cons, List.find?_cons, mergeLookup_cons_eq]
      have : format_key g0 = k0 := hk0
      simp [this]
    · rw [List.map_cons, List.find?_cons, mergeLookup_cons_ne _ _ _ _ hk]
      have hne : (format_key g0 = k) = False := by
        simp [hk0, hk]
      simp only [hne, decide_False]
      exact ih fun e he => hI e (List.mem_cons_of_mem _ he)

end YtDlp

namespace YtDlp

/-- C3 (amended): `_merge_mpd_periods` groups formats by the ordered tuple of
their attribute VALUES — `tuple(v for k, v in f.items() if k not in (...))` —
excluding `format_id`/`fragments`/`manifest_stream_number`, not by the full
key-value attribute set; per group it keeps the first format (marked) and
extends its fragment list, in period (input) order, with the fragments of
every later member that carries a `fragments` key. -/
theorem C3_merge_groups_by_value_tuple (ps : List PeriodEntry)
    (hW : ∀ f ∈ ps.flatMap (fun per => per.formats),
      fragsOk f = true ∧ dictHasKey "is_dash_periods" f = false) :
    ∃ fs, merge_mpd_periods ps = .ok (fs, ps.foldl subsFoldP []) ∧
      (fs.map format_key).Nodup ∧
      ∀ k, fs.find? (fun g => format_key g = k)
        = combineSpec none
            ((ps.flatMap fun per => per.formats).filter fun f =>
              format_key (markF f) = k) := by
  obtain ⟨d', hfold, hI', hN', hchar⟩ :=
    mergeFold_char (ps.flatMap fun per => per.formats) [] hW (by simp) (by simp)
  refine ⟨d'.map Prod.snd, ?_, ?_, ?_⟩
  · unfold merge_mpd_periods
    rw [foldlM_periods_flat ps ([], [])]
    dsimp only
    rw [hfold, exMap_ok, exBind_ok, exPure_eq]
  · have hmm : (d'.map Prod.snd).map format_key = d'.map Prod.fst := by
      rw [List.map_map]
      exact List.map_congr_left fun e he => (hI' e he).1
    rw [hmm]
    exact hN'
  · intro k
    rw [map_snd_find k d' (fun e he => (hI' e he).1), hchar k]
    rfl

/-- The first C3 period: a format whose only non-excluded attribute is
`ext = "mp4"`. -/
def c3p1 : PeriodEntry :=
  { id := "p0",
    formats := [[("ext", Val.s "mp4"),
                 ("fragments", Val.frags [{ url := some "a1.mp4" }])]] }

/-- The second C3 period: a format whose only non-excluded attribute is
`container = "mp4"` — a different attribute set, but the same value tuple. -/
def c3p2 : PeriodEntry :=
  { id := "p1",
    formats := [[("container", Val.s "mp4"),
                 ("fragments", Val.frags [{ url := some "b1.mp4" }])]] }

/-- C3 (counterexample): two formats with different non-excluded attribute
SETS (`ext` vs `container`) but equal value tuples are grouped into one
format with concatenated fragments, contradicting grouping by "equality of
their full attribute set". -/
theorem C3_counterexample :
    nonExcludedAttrs [("ext", Val.s "mp4"),
        ("fragments", Val.frags [{ url := some "a1.mp4" }])]
      ≠ nonExcludedAttrs [("container", Val.s "mp4"),
        ("fragments", Val.frags [{ url := some "b1.mp4" }])] ∧
    merge_mpd_periods [c3p1, c3p2]
      = .ok ([[("ext", Val.s "mp4"),
               ("fragments", Val.frags [{ url := some "a1.mp4" }, { url := some "b1.mp4" }]),
               ("is_dash_periods", Val.b true)]], []) := ⟨by decide, rfl⟩

/-- C3 (witness): the amended grouping theorem applied to the two concrete
periods. -/
theorem C3_witness :
    ∃ fs, merge_mpd_periods [c3p1, c3p2] = .ok (fs, List.foldl subsFoldP [] [c3p1, c3p2]) ∧
      (fs.map format_key).Nodup ∧
      ∀ k, fs.find? (fun g => format_key g = k)
        = combineSpec none
            (([c3p1, c3p2].flatMap fun per => per.formats).filter fun f =>
              format_key (markF f) = k) :=
  C3_merge_groups_by_value_tuple [c3p1, c3p2] (by decide)

end YtDlp

namespace YtDlp

/-! ### DASH fragment enumeration (`_parse_mpd_periods`): SegmentTimeline -/

/-- One `<S>` element of a `SegmentTimeline` as it appears in the XML:
`t` and `r` optional, `d` mandatory (`int(s.attrib['d'])`). -/
structure SElemX where
  t : Option Int := none
  d : Int
  r : Option Int := none
  deriving Repr, DecidableEq

/-- One entry of `ms_info['s']` after `extract_common`. -/
structure STriple where
  t : Int
  d : Int
  r : Int
  deriving Repr, DecidableEq

/-- The `s` list built by `extract_common`: `{'t': int(s.get('t', 0)),
'd': int(s.attrib['d']), 'r': int(s.get('r', 0))}` — an absent `t` and an
explicit `t="0"` are indistinguishable after this step. -/
def extractS (es : List SElemX) : List STriple :=
  es.map fun e => { t := e.t.getD 0, d := e.d, r := e.r.getD 0 }

/-- One media fragment of the timeline branch (the template substitution
`media_template % {'Time': …, 'Bandwidth': …, 'Number': …}` is abstracted as
the function `tmpl Time Number`, `Bandwidth` being fixed per representation). -/
structure TFrag where
  url : String
  duration : Option ℚ := none
  deriving Repr, DecidableEq

/-- `add_segment_url()`: `duration = float_or_none(segment_d, timescale)`. -/
def addT (tmpl : Int → Int → String) (ts : Int) (time number d : Int) : TFrag :=
  { url := tmpl time number, duration := some (qDiv (d : ℚ) (ts : ℚ)) }

/-- The inner `for _ in range(s.get('r', 0))` loop: advance the cursor by `d`,
emit a fragment, bump the segment number. -/
def repLoop (tmpl : Int → Int → String) (ts : Int) (d : Int) :
    Nat → Int → Int → List TFrag → List TFrag × Int × Int
  | 0, time, number, acc => (acc, time, number)
  | n + 1, time, number, acc =>
    repLoop tmpl ts d n (time + d) (number + 1) (acc ++ [addT tmpl ts (time + d) number d])

/-- The `for s in representation_ms_info['s']` loop of the `$Number$`/`$Time$`
template branch: `segment_time = s.get('t') or segment_time` (so `t = 0` does
NOT reset the cursor), one fragment, `r` repetitions, then a trailing
`segment_time += segment_d`. -/
def timelineLoop (tmpl : Int → Int → String) (ts : Int) :
    List STriple → Int → Int → List TFrag → List TFrag
  | [], _, _, acc => acc
  | e :: rest, time, number, acc =>
    let t0 := if e.t ≠ 0 then e.t else time
    let res := repLoop tmpl ts e.d e.r.toNat t0 (number + 1) (acc ++ [addT tmpl ts t0 number e.d])
    timelineLoop tmpl ts rest (res.2.1 + e.d) res.2.2 res.1

/-- The timeline branch entry point: `fragments = []`, `segment_time = 0`,
`segment_number = start_number`. -/
def mediaTemplateTimeline (tmpl : Int → Int → String) (ts startNumber : Int)
    (s : List STriple) : List TFrag :=
  timelineLoop tmpl ts s 0 startNumber []

/-- The closed-form expansion the amended C4 states: with the cursor reset to
`t` only when `t ≠ 0`, each entry yields `r.toNat + 1` fragments at times
`t₀ + d·i`, each of duration `d / timescale`, and advances the cursor by
`d · (r.toNat + 1)`. -/
def timelineSpec (tmpl : Int → Int → String) (ts : Int) :
    List STriple → Int → Int → List TFrag
  | [], _, _ => []
  | e :: rest, time, number =>
    let t0 := if e.t ≠ 0 then e.t else time
    (List.range (e.r.toNat + 1)).map
        (fun i : Nat => addT tmpl ts (t0 + e.d * (i : Int)) (number + (i : Int)) e.d)
      ++ timelineSpec tmpl ts rest (t0 + e.d * ((e.r.toNat : Int) + 1))
          (number + ((e.r.toNat : Int) + 1))

/-! ### DASH fragment enumeration: explicit SegmentURL list with timeline -/

/-- The inner `for _ in range(s.get('r', 0) + 1)` loop of the
`segment_urls + s` branch: unbounded indexing into `segment_urls`
(`Except.error` models the `IndexError`). -/
def suRep (urls : List String) (dur : Option ℚ) :
    Nat → Nat → List TFrag → Except String (List TFrag × Nat)
  | 0, idx, acc => .ok (acc, idx)
  | n + 1, idx, acc =>
    match urls.get? idx with
    | none => .error "IndexError"
    | some u => suRep urls dur n (idx + 1) (acc ++ [{ url := u, duration := dur }])

/-- The `for s in representation_ms_info['s']` loop of the `segment_urls`
branch (`duration = float_or_none(s['d'], timescale)`). -/
def suLoop (ts : Int) (urls : List String) :
    List STriple → Nat → List TFrag → Except String (List TFrag)
  | [], _, acc => .ok acc
  | e :: rest, idx, acc =>
    match suRep urls (some (qDiv (e.d : ℚ) (ts : ℚ))) (e.r + 1).toNat idx acc with
    | .error err => .error err
    | .ok (acc, idx) => suLoop ts urls rest idx acc

/-- The `segment_urls + s` branch entry point (`segment_index = 0`). -/
def segmentUrlsFrags (ts : Int) (urls : List String) (s : List STriple) :
    Except String (List TFrag) :=
  suLoop ts urls s 0 []

end YtDlp


namespace YtDlp

theorem addT_congr (tmpl : Int → Int → String) (ts d : Int) (a a' b b' : Int)
    (h1 : a = a') (h2 : b = b') : addT tmpl ts a b d = addT tmpl ts a' b' d := by
  rw [h1, h2]

theorem repLoop_spec (tmpl : Int → Int → String) (ts d : Int) :
    ∀ (n : Nat) (time number : Int) (acc : List TFrag),
      repLoop tmpl ts d n time number acc =
        (acc ++ (List.range n).map
            (fun i : Nat => addT tmpl ts (time + d * ((i : Int) + 1)) (number + (i : Int)) d),
         time + d * (n : Int), number + (n : Int)) := by
  intro n
  induction n with
  | zero =>
    intro time number acc
    simp [repLoop]
  | succ n ih =>
    intro time number acc
    rw [repLoop, ih, List.range_succ_eq_map, List.map_cons, List.map_map]
    simp only [Prod.mk.injEq]
    refine ⟨?_, by push_cast; ring, by push_cast; ring⟩
    rw [List.append_assoc, List.singleton_append]
    congr 1
    congr 1
    · exact addT_congr tmpl ts d _ _ _ _ (by push_cast; ring) (by push_cast; ring)
    · refine List.map_congr_left fun i _ => ?_
      exact addT_congr tmpl ts d _ _ _ _ (by push_cast; ring) (by push_cast; ring)

theorem timelineLoop_spec (tmpl : Int → Int → String) (ts : Int) :
    ∀ (s : List STriple) (time number : Int) (acc : List TFrag),
      timelineLoop tmpl ts s time number acc = acc ++ timelineSpec tmpl ts s time number := by
  intro s
  induction s with
  | nil =>
    intro time number acc
    simp [timelineLoop, timelineSpec]
  | cons e rest ih =>
    intro time number acc
    rw [timelineLoop, timelineSpec]
    rw [repLoop_spec]
    dsimp only
    rw [ih]
    set t0 : Int := if e.t ≠ 0 then e.t else time with ht0
    have hM : (List.range (e.r.toNat + 1)).map
        (fun i : Nat => addT tmpl ts (t0 + e.d * (i : Int)) (number + (i : Int)) e.d)
        = addT tmpl ts t0 number e.d ::
          (List.range e.r.toNat).map
            (fun i : Nat =>
              addT tmpl ts (t0 + e.d * ((i : Int) + 1)) (number + 1 + (i : Int)) e.d) := by
      rw [List.range_succ_eq_map, List.map_cons, List.map_map]
      congr 1
      · exact addT_congr tmpl ts e.d _ _ _ _ (by push_cast; ring) (by push_cast; ring)
      · refine List.map_congr_left fun i _ => ?_
        exact addT_congr tmpl ts e.d _ _ _ _ (by push_cast; ring) (by push_cast; ring)
    have hS : timelineSpec tmpl ts rest (t0 + e.d * ((e.r.toNat : Int) + 1))
          (number + ((e.r.toNat : Int) + 1))
        = timelineSpec tmpl ts rest (t0 + e.d * (e.r.toNat : Int) + e.d)
          (number + 1 + (e.r.toNat : Int)) := by
      congr 1
      · ring
      · ring
    rw [hM, hS]
    simp [List.append_assoc]

theorem timelineSpec_length (tmpl : Int → Int → String) (ts : Int) :
    ∀ (s : List STriple) (time number : Int),
      (timelineSpec tmpl ts s time number).length = (s.map fun e => e.r.toNat + 1).sum := by
  intro s
  induction s with
  | nil => intro time number; rfl
  | cons e rest ih =>
    intro time number
    rw [timelineSpec]
    rw [List.length_append, List.length_map, List.length_range, ih, List.map_cons, List.sum_cons]

/-- C4 (amended): the `SegmentTimeline` expansion of the media-template branch
produces, per `{t, d, r}` entry, exactly `r.toNat + 1` fragments of duration
`d / timescale`, driven by a running time cursor that advances by `d` per
repetition; the cursor is reset to an explicit `t` only when `t` is NONZERO —
`segment_time = s.get('t') or segment_time` treats an explicit `t = 0` (and
any absent `t`, stored as 0) as "keep the running cursor". -/
theorem C4_segment_timeline_expansion (tmpl : Int → Int → String) (ts startNumber : Int)
    (s : List STriple) :
    mediaTemplateTimeline tmpl ts startNumber s = timelineSpec tmpl ts s 0 startNumber ∧
    (mediaTemplateTimeline tmpl ts startNumber s).length
      = (s.map fun e => e.r.toNat + 1).sum := by
  unfold mediaTemplateTimeline
  have h := timelineLoop_spec tmpl ts s 0 startNumber []
  rw [List.nil_append] at h
  refine ⟨h, ?_⟩
  rw [h, timelineSpec_length]

/-- The C4 counterexample timeline: the second `<S>` carries an explicit
`t="0"` while the running cursor is at 10. -/
def c4elems : List SElemX := [{ t := none, d := 5, r := some 1 }, { t := some 0, d := 3 }]

/-- C4 (counterexample): with an explicit `t = 0` on the second entry, the
claim says the cursor resets to 0, but the third fragment is generated at
`Time = 10` (the running cursor): `s.get('t') or segment_time` ignores an
explicit zero. -/
theorem C4_counterexample :
    (c4elems.get? 1).map SElemX.t = some (some 0) ∧
    (mediaTemplateTimeline (fun time number => Int.repr time ++ "-" ++ Int.repr number) 1 1
        (extractS c4elems)).map TFrag.url = ["0-1", "5-2", "10-3"] := by
  decide

end YtDlp

namespace YtDlp

theorem suRep_err (urls : List String) (dur : Option ℚ) :
    ∀ (n : Nat) (idx : Nat) (acc : List TFrag),
      1 ≤ n → urls.length < idx + n →
      suRep urls dur n idx acc = .error "IndexError" := by
  intro n
  induction n with
  | zero =>
    intro idx acc hn h
    omega
  | succ n ih =>
    intro idx acc hn h
    rw [suRep]
    cases hg : urls.get? idx with
    | none => rfl
    | some u =>
      have hlt : idx < urls.length := by
        by_contra hc
        rw [List.get?_eq_none.mpr (by omega)] at hg
        exact Option.noConfusion hg
      exact ih (idx + 1) _ (by omega) (by omega)

theorem suRep_ok (urls : List String) (dur : Option ℚ) :
    ∀ (n : Nat) (idx : Nat) (acc : List TFrag),
      idx + n ≤ urls.length →
      ∃ acc', suRep urls dur n idx acc = .ok (acc', idx + n) ∧
        acc'.length = acc.length + n := by
  intro n
  induction n with
  | zero =>
    intro idx acc _
    exact ⟨acc, rfl, rfl⟩
  | succ n ih =>
    intro idx acc h
    have hlt : idx < urls.length := by omega
    rw [suRep]
    cases hg : urls.get? idx with
    | none =>
      rw [List.get?_eq_none] at hg
      omega
    | some u =>
      obtain ⟨acc', hrec, hlen⟩ := ih (idx + 1) (acc ++ [{ url := u, duration := dur }]) (by omega)
      have he : idx + 1 + n = idx + (n + 1) := by omega
      rw [he] at hrec
      refine ⟨acc', hrec, ?_⟩
      simp only [List.length_append, List.length_singleton] at hlen
      omega

end YtDlp

namespace YtDlp

theorem suLoop_err (ts : Int) (urls : List String) :
    ∀ (s : List STriple) (idx : Nat) (acc : List TFrag),
      idx ≤ urls.length →
      urls.length < idx + (s.map fun e => (e.r + 1).toNat).sum →
      suLoop ts urls s idx acc = .error "IndexError" := by
  intro s
  induction s with
  | nil =>
    intro idx acc hidx h
    simp only [List.map_nil, List.sum_nil] at h
    omega
  | cons e rest ih =>
    intro idx acc hidx h
    simp only [List.map_cons, List.sum_cons] at h
    rw [suLoop]
    by_cases hn : urls.length < idx + (e.r + 1).toNat
    · have h1 : 1 ≤ (e.r + 1).toNat := by omega
      rw [suRep_err urls _ _ _ _ h1 hn]
    · push_neg at hn
      obtain ⟨acc', hrec, _⟩ := suRep_ok urls (some (qDiv (e.d : ℚ) (ts : ℚ)))
        ((e.r + 1).toNat) idx acc hn
      rw [hrec]
      exact ih (idx + (e.r + 1).toNat) acc' hn (by omega)

/-- C10: in the `segment_urls + SegmentTimeline` branch the running segment
index is not bounds-checked: whenever the timeline expansion total — the sum
over the `S` entries of `r + 1` — exceeds the number of `SegmentURL` entries,
the enumeration raises `IndexError` instead of returning fragments. -/
theorem C10_segment_urls_index_error (ts : Int) (urls : List String) (s : List STriple)
    (h : urls.length < (s.map fun e => (e.r + 1).toNat).sum) :
    segmentUrlsFrags ts urls s = .error "IndexError" := by
  unfold segmentUrlsFrags
  exact suLoop_err ts urls s 0 [] (by omega) (by omega)

/-- C10 (witness): one `S` entry with `r = 1` (two fragments) against a single
`SegmentURL`. -/
theorem C10_witness :
    (1 : Nat) < (([{ t := 0, d := 5, r := 1 }] : List STriple).map
        fun e => (e.r + 1).toNat).sum ∧
    segmentUrlsFrags 1 ["u1"] [{ t := 0, d := 5, r := 1 }] = .error "IndexError" :=
  ⟨by decide, C10_segment_urls_index_error 1 ["u1"] [{ t := 0, d := 5, r := 1 }] (by decide)⟩

end YtDlp

namespace YtDlp

/-! ### DASH `prepare_template` (C5): `%`-escaping and printf round-trip

The escape loop of `prepare_template` is embedded verbatim; the later
`re.sub` translation of `$Id$` / `$Id%0Nd$` spans to `%(Id)d` / `%(Id)0Nd`
format specs is represented at the piece level (`TPiece`), and Python's
`%`-operator with a dict argument is modelled by the scanner `pyScan`. -/

/-- The escape loop of `prepare_template`: copy each character, toggle
`in_template` at `$`, and double `%` when outside a template span. -/
def percentEscape : List Char → Bool → List Char
  | [], _ => []
  | c :: rest, inT =>
    if c = '$' then c :: percentEscape rest (!inT)
    else if c = '%' ∧ inT = false then c :: c :: percentEscape rest inT
    else c :: percentEscape rest inT

/-- Doubling of every `%` in a span-free string. -/
def doublePercents : List Char → List Char
  | [] => []
  | c :: rest =>
    if c = '%' then c :: c :: doublePercents rest else c :: doublePercents rest

/-- A template split into `$...$` spans and the text between them. -/
inductive TChunk where
  | outside (l : List Char)
  | span (l : List Char)
  deriving Repr, DecidableEq

/-- Concatenate chunks back into the raw template text. -/
def renderChunks : List TChunk → List Char
  | [] => []
  | .outside l :: rest => l ++ renderChunks rest
  | .span l :: rest => '$' :: (l ++ '$' :: renderChunks rest)

/-- What the escape loop does per chunk: double `%` outside, keep spans. -/
def escChunk : TChunk → TChunk
  | .outside l => .outside (doublePercents l)
  | .span l => .span l

/-- A chunk is `$`-free (spans do not nest; outside text owns no `$`). -/
def chunkDollarFree : TChunk → Bool
  | .outside l => decide ('$' ∉ l)
  | .span l => decide ('$' ∉ l)


/-- One piece of the translated (post-`re.sub`) template: literal text
(already `%`-doubled) or a `%(name)spec·conv` format spec. -/
inductive TPiece where
  | lit (l : List Char)
  | subst (name spec : List Char)
  deriving Repr, DecidableEq

/-- The translated template text of a piece list. -/
def renderPieces : List TPiece → List Char
  | [] => []
  | .lit l :: rest => doublePercents l ++ renderPieces rest
  | .subst n spec :: rest => '%' :: '(' :: (n ++ ')' :: (spec ++ 'd' :: renderPieces rest))

/-- A well-formed translated piece: the name owns no `)` and the padding spec
owns no conversion character. -/
def pieceOk : TPiece → Bool
  | .lit _ => true
  | .subst n spec => decide (')' ∉ n) && spec.all (fun c => !c.isAlpha)

/-- The intended expansion: literals unchanged, names substituted through the
value map `m`. -/
def substPieces (m : List Char → Option (List Char)) : List TPiece → Option (List Char)
  | [] => some []
  | .lit l :: rest => (substPieces m rest).map (fun r => l ++ r)
  | .subst n _ :: rest =>
    match m n with
    | some v => (substPieces m rest).map (fun r => v ++ r)
    | none => none

/-- The scanner state of the `%`-operator model. -/
inductive PyMode where
  | normal
  | percent
  | inName (acc : List Char)
  | inSpec (name : List Char)

/-- Python `template % mapping` for the constructs occurring in prepared
templates: `%%` collapses to `%`, `%(name)spec·conv` substitutes `m name`,
anything else (a stray `%`) is an error. -/
def pyScan (m : List Char → Option (List Char)) : List Char → PyMode → Option (List Char)
  | [], .normal => some []
  | [], _ => none
  | c :: rest, .normal =>
    if c = '%' then pyScan m rest .percent
    else (pyScan m rest .normal).map (fun r => c :: r)
  | c :: rest, .percent =>
    if c = '%' then (pyScan m rest .normal).map (fun r => '%' :: r)
    else if c = '(' then pyScan m rest (.inName [])
    else none
  | c :: rest, .inName acc =>
    if c = ')' then pyScan m rest (.inSpec acc.reverse)
    else pyScan m rest (.inName (c :: acc))
  | c :: rest, .inSpec name =>
    if c.isAlpha then
      match m name with
      | some v => (pyScan m rest .normal).map (fun r => v ++ r)
      | none => none
    else pyScan m rest (.inSpec name)

/-- `template % mapping`. -/
def pyFormatMap (m : List Char → Option (List Char)) (l : List Char) : Option (List Char) :=
  pyScan m l .normal

end YtDlp

namespace YtDlp

theorem percentEscape_outside (rest : List Char) :
    ∀ l : List Char, '$' ∉ l →
      percentEscape (l ++ rest) false = doublePercents l ++ percentEscape rest false := by
  intro l
  induction l with
  | nil => intro _; rfl
  | cons c tail ih =>
    intro h
    have hc : c ≠ '$' := fun hc => h (hc ▸ List.mem_cons_self _ _)
    have ht : '$' ∉ tail := fun hm => h (List.mem_cons_of_mem _ hm)
    rw [List.cons_append, percentEscape, if_neg hc]
    by_cases hp : c = '%'
    · rw [if_pos ⟨hp, rfl⟩, doublePercents, if_pos hp, ih ht]
      rfl
    · rw [if_neg (fun hand => hp hand.1), doublePercents, if_neg hp, ih ht]
      rfl

theorem percentEscape_inside (rest : List Char) :
    ∀ l : List Char, '$' ∉ l →
      percentEscape (l ++ rest) true = l ++ percentEscape rest true := by
  intro l
  induction l with
  | nil => intro _; rfl
  | cons c tail ih =>
    intro h
    have hc : c ≠ '$' := fun hc => h (hc ▸ List.mem_cons_self _ _)
    have ht : '$' ∉ tail := fun hm => h (List.mem_cons_of_mem _ hm)
    rw [List.cons_append, percentEscape, if_neg hc, if_neg (by simp), ih ht]
    rfl

theorem percentEscape_chunks :
    ∀ cl : List TChunk, (∀ c ∈ cl, chunkDollarFree c = true) →
      percentEscape (renderChunks cl) false = renderChunks (cl.map escChunk) := by
  intro cl
  induction cl with
  | nil => intro _; rfl
  | cons c rest ih =>
    intro h
    have hc := h c (List.mem_cons_self _ _)
    have hrest : ∀ c ∈ rest, chunkDollarFree c = true :=
      fun c hm => h c (List.mem_cons_of_mem _ hm)
    cases c with
    | outside l =>
      have hl : '$' ∉ l := of_decide_eq_true hc
      rw [List.map_cons]
      show percentEscape (l ++ renderChunks rest) false = _
      rw [percentEscape_outside _ l hl, ih hrest]
      rfl
    | span l =>
      have hl : '$' ∉ l := of_decide_eq_true hc
      rw [List.map_cons]
      show percentEscape ('$' :: (l ++ '$' :: renderChunks rest)) false = _
      rw [percentEscape, if_pos rfl, Bool.not_false, percentEscape_inside _ l hl, percentEscape,
        if_pos rfl, Bool.not_true, ih hrest]
      rfl

theorem pyScan_lit (m : List Char → Option (List Char)) :
    ∀ (l rest : List Char),
      pyScan m (doublePercents l ++ rest) .normal
        = (pyScan m rest .normal).map (fun r => l ++ r) := by
  intro l
  induction l with
  | nil =>
    intro rest
    simp [doublePercents]
  | cons c tail ih =>
    intro rest
    by_cases hp : c = '%'
    · subst hp
      rw [doublePercents, if_pos rfl, List.cons_append, List.cons_append, pyScan, if_pos rfl,
        pyScan, if_pos rfl, ih rest, Option.map_map]
      rfl
    · rw [doublePercents, if_neg hp, List.cons_append, pyScan, if_neg hp, ih rest,
        Option.map_map]
      rfl

theorem pyScan_name (m : List Char → Option (List Char)) :
    ∀ (n : List Char) (acc tail : List Char), ')' ∉ n →
      pyScan m (n ++ ')' :: tail) (.inName acc)
        = pyScan m tail (.inSpec (acc.reverse ++ n)) := by
  intro n
  induction n with
  | nil =>
    intro acc tail _
    rw [List.nil_append, pyScan, if_pos rfl, List.append_nil]
  | cons c tail2 ih =>
    intro acc tail h
    have hc : c ≠ ')' := fun hc => h (hc ▸ List.mem_cons_self _ _)
    have ht : ')' ∉ tail2 := fun hm => h (List.mem_cons_of_mem _ hm)
    rw [List.cons_append, pyScan, if_neg hc, ih (c :: acc) tail ht]
    simp

theorem pyScan_spec (m : List Char → Option (List Char)) :
    ∀ (spec : List Char) (name tail : List Char), (∀ c ∈ spec, c.isAlpha = false) →
      pyScan m (spec ++ tail) (.inSpec name) = pyScan m tail (.inSpec name) := by
  intro spec
  induction spec with
  | nil => intro name tail _; rfl
  | cons c tail2 ih =>
    intro name tail h
    have hc : c.isAlpha = false := h c (List.mem_cons_self _ _)
    rw [List.cons_append, pyScan, if_neg (by simp [hc]), ih name tail
      (fun c hm => h c (List.mem_cons_of_mem _ hm))]

theorem pyFormat_pieces (m : List Char → Option (List Char)) :
    ∀ ps : List TPiece, (∀ p ∈ ps, pieceOk p = true) →
      pyFormatMap m (renderPieces ps) = substPieces m ps := by
  intro ps
  induction ps with
  | nil => intro _; rfl
  | cons p rest ih =>
    intro h
    have hp := h p (List.mem_cons_self _ _)
    have hrest : ∀ p ∈ rest, pieceOk p = true :=
      fun p hm => h p (List.mem_cons_of_mem _ hm)
    cases p with
    | lit l =>
      unfold pyFormatMap at ih ⊢
      rw [renderPieces, pyScan_lit, ih hrest]
      rfl
    | subst n spec =>
      simp only [pieceOk, Bool.and_eq_true, List.all_eq_true, Bool.not_eq_true'] at hp
      have hn : ')' ∉ n := of_decide_eq_true hp.1
      have hspec : ∀ c ∈ spec, c.isAlpha = false := fun c hm => hp.2 c hm
      unfold pyFormatMap at ih ⊢
      rw [renderPieces, pyScan, if_pos rfl, pyScan, if_neg (by decide), if_pos rfl,
        pyScan_name m n [] _ hn, List.reverse_nil, List.nil_append,
        pyScan_spec m spec n _ hspec, pyScan, if_pos (by decide)]
      rw [substPieces]
      cases hm : m n with
      | none => rfl
      | some v =>
        rw [ih hrest]

end YtDlp

namespace YtDlp

/-- C5: `prepare_template` doubles every literal `%` outside `$...$` spans and
leaves characters inside spans untouched (the escape loop maps each outside
chunk through `doublePercents` and keeps span chunks verbatim), and
printf-style substitution of the translated template restores every literal
chunk — hence every original `%` outside `$...$` spans — unchanged in the
expanded URL. -/
theorem C5_template_percent_roundtrip (cl : List TChunk) (ps : List TPiece)
    (m : List Char → Option (List Char))
    (hcl : ∀ c ∈ cl, chunkDollarFree c = true)
    (hps : ∀ p ∈ ps, pieceOk p = true) :
    percentEscape (renderChunks cl) false = renderChunks (cl.map escChunk) ∧
    pyFormatMap m (renderPieces ps) = substPieces m ps :=
  ⟨percentEscape_chunks cl hcl, pyFormat_pieces m ps hps⟩

/-- The C5 witness template, chunked: `http://x/a%b/$Number%05d$/s%.mp4`. -/
def c5cl : List TChunk :=
  [TChunk.outside (cs "http://x/a%b/"), TChunk.span (cs "Number%05d"),
   TChunk.outside (cs "/s%.mp4")]

/-- The C5 witness template after `$...$` translation. -/
def c5ps : List TPiece :=
  [TPiece.lit (cs "http://x/a%b/"), TPiece.subst (cs "Number") (cs "05"),
   TPiece.lit (cs "/s%.mp4")]

/-- The C5 witness substitution values. -/
def c5m : List Char → Option (List Char) :=
  fun n => if n = cs "Number" then some (cs "00042") else none

/-- C5 (witness): the round-trip theorem applied to the concrete template. -/
theorem C5_witness :
    (∀ c ∈ c5cl, chunkDollarFree c = true) ∧ (∀ p ∈ c5ps, pieceOk p = true) ∧
    (percentEscape (renderChunks c5cl) false = renderChunks (c5cl.map escChunk) ∧
      pyFormatMap c5m (renderPieces c5ps) = substPieces c5m c5ps) :=
  ⟨by decide, by decide, C5_template_percent_roundtrip c5cl c5ps c5m (by decide) (by decide)⟩

end YtDlp

namespace YtDlp

/-! ### ISM (`_parse_ism_formats_and_subtitles`): fragment timeline (C7)

One `<c>` element carries optional `t`/`d`/`r` attributes and a list of child
elements; only each child's optional `t` attribute matters here, because the
code indexes `stream_fragment[stream_fragment_index + 1]` — the children of
the CURRENT `<c>` element — when inferring a missing duration. -/

/-- One `<c>` element: attributes and the `t` attributes of its children. -/
structure CElem where
  t : Option Int := none
  d : Option Int := none
  r : Option Int := none
  children : List (Option Int) := []
  deriving Repr, DecidableEq

/-- One ISM media fragment (`{start time}` substitution abstracted as
`urlPat time`). -/
structure IsmFrag where
  url : String
  duration : ℚ
  deriving Repr, DecidableEq

/-- `int(stream_fragment[idx + 1].attrib['t'])`, with `IndexError` caught
(falling back to the manifest `Duration`) but `KeyError` not. -/
def nextFragmentTime (dur : Int) (idx : Nat) (e : CElem) : Except String Int :=
  match e.children.get? (idx + 1) with
  | none => .ok dur
  | some none => .error "KeyError"
  | some (some t) => .ok t

/-- The duration of one `<c>` run: the `d` attribute when truthy, else
`(next_fragment_time - time) / fragment_repeat`. -/
def ismDuration (dur : Int) (idx : Nat) (time : ℚ) (rep : Int) (e : CElem) :
    Except String ℚ :=
  match e.d with
  | some d => if d = 0 then ismInfer dur idx time rep e else .ok (d : ℚ)
  | none => ismInfer dur idx time rep e
where
  /-- the inference branch -/
  ismInfer (dur : Int) (idx : Nat) (time : ℚ) (rep : Int) (e : CElem) : Except String ℚ :=
    (nextFragmentTime dur idx e).map fun nft => qDiv (qSub (nft : ℚ) time) (rep : ℚ)

/-- The inner `for _ in range(fragment_repeat)` loop: emit a fragment, advance
the time cursor by the (possibly inferred, fractional) duration. -/
def ismRep (urlPat : ℚ → String) (ts : Int) (durQ : ℚ) :
    Nat → ℚ → List IsmFrag → List IsmFrag × ℚ
  | 0, time, acc => (acc, time)
  | n + 1, time, acc =>
    ismRep urlPat ts durQ n (qAdd time durQ)
      (acc ++ [{ url := urlPat time, duration := qDiv durQ (ts : ℚ) }])

/-- The `for stream_fragment_index, stream_fragment in enumerate(...)` loop:
`t` updates the cursor when truthy, `r` defaults to 1 when falsy. -/
def ismLoop (urlPat : ℚ → String) (dur : Int) (ts : Int) :
    List CElem → Nat → ℚ → List IsmFrag → Except String (List IsmFrag)
  | [], _, _, acc => .ok acc
  | e :: rest, idx, time, acc =>
    let time :=
      match e.t with
      | some t => if t = 0 then time else (t : ℚ)
      | none => time
    let rep : Int :=
      match e.r with
      | some r => if r = 0 then 1 else r
      | none => 1
    match ismDuration dur idx time rep e with
    | .error err => .error err
    | .ok durQ =>
      let res := ismRep urlPat ts durQ rep.toNat time acc
      ismLoop urlPat dur ts rest (idx + 1) res.2 res.1

/-- The per-`QualityLevel` fragment enumeration. -/
def ismFragments (urlPat : ℚ → String) (dur ts : Int) (cl : List CElem) :
    Except String (List IsmFrag) :=
  ismLoop urlPat dur ts cl 0 0 []

/-- C7: the code evaluated at the failing input.  The first `<c>` has no `d`
and is childless, the second `<c>` has `t = 100`; the claim says the first
fragment's duration is inferred from the NEXT `<c>`'s `t`
(`(100 - 0) / 1 = 100`), but `stream_fragment[stream_fragment_index + 1]`
indexes the children of the current `<c>`, always raises `IndexError` on a
childless element, and so falls back to the manifest-level
`Duration = 1000` even though this is not the last fragment. -/
theorem C7_ism_next_fragment_inference :
    ismFragments (fun _ => "u") 1000 1
        [{ t := none, d := none, r := none, children := [] },
         { t := some 100, d := some 50 }]
      = .ok [{ url := "u", duration := 1000 }, { url := "u", duration := 50 }] ∧
    (1000 : ℚ) ≠ qDiv (qSub (100 : ℚ) 0) 1 :=
  ⟨rfl, by decide⟩

end YtDlp

namespace YtDlp

/-! ### SMIL (`_parse_smil_formats_and_subtitles`, `_parse_smil_subtitles`)

The nested-manifest branches (m3u8 / f4m / mpd / ism) and the HTTP
reachability check perform network fetches through the external collaborator;
they are parameters (`SmilEnv`) here.  The element loops, the `srcs` seen-set
and the dispatch conditions are embedded from the source. -/

/-- One `<video>`/`<audio>`/`<media>` element. -/
structure SmilMedium where
  src : Option String := none
  proto : Option String := none
  streamer : Option String := none
  ext : Option String := none
  bitrate : Option ℚ := none
  filesize : Option Nat := none
  width : Option Nat := none
  height : Option Nat := none
  deriving Repr, DecidableEq

/-- One `<imagestream>` element. -/
structure SmilImage where
  src : Option String := none
  imgType : Option String := none
  width : Option Nat := none
  height : Option Nat := none
  deriving Repr, DecidableEq

/-- One `<textstream>` element. -/
structure SmilText where
  src : Option String := none
  ext : Option String := none
  ttype : Option String := none
  systemLanguage : Option String := none
  systemLanguageName : Option String := none
  lang : Option String := none
  deriving Repr, DecidableEq

/-- A SMIL document (element lists in `findall` order). -/
structure SmilDoc where
  metaBase : Option String := none
  videos : List SmilMedium := []
  audios : List SmilMedium := []
  medias : List SmilMedium := []
  imagestreams : List SmilImage := []
  textstreams : List SmilText := []

/-- One output format of the SMIL parser. -/
structure SmilFormat where
  url : String := ""
  play_path : Option String := none
  ext : Option String := none
  format_id : String := ""
  format_note : Option String := none
  tbr : Option ℚ := none
  filesize : Option Nat := none
  width : Option Nat := none
  height : Option Nat := none
  acodec : Option String := none
  vcodec : Option String := none
  deriving Repr, DecidableEq

/-- `subtitles.setdefault(lang, []).extend(infos)`. -/
def subsExtendList (lang : String) (infos : List SubInfo) : Subtitles → Subtitles
  | [] => [(lang, infos)]
  | (l, is) :: rest =>
    if l = lang then (l, is ++ infos) :: rest else (l, is) :: subsExtendList lang infos rest

/-- `_merge_subtitles(new, target=target)`. -/
def mergeSubtitles (new : Subtitles) (target : Subtitles) : Subtitles :=
  new.foldl (fun t p => subsExtendList p.1 p.2 t) target

/-- The external collaborators of the SMIL parser: nested-manifest fetches,
URL reachability, response-header extension detection, and the caller's
`f4m_params` / `transform_rtmp_url` arguments. -/
structure SmilEnv where
  fetchM3u8 : String → List SmilFormat × Subtitles := fun _ => ([], [])
  fetchF4m : String → List SmilFormat := fun _ => []
  fetchMpd : String → List SmilFormat × Subtitles := fun _ => ([], [])
  fetchIsm : String → List SmilFormat × Subtitles := fun _ => ([], [])
  isValidUrl : String → Bool := fun _ => true
  detectExt : String → Option String := fun _ => none
  f4mQuery : String := "hdcore=3.2.0&plugin=flowplayer-3.2.0.1"
  transformRtmp : Option (String → String → String × String) := none

/-- The mutable state of the media / imagestream loops. -/
structure SmilState where
  srcs : List String := []
  rtmp_count : Nat := 0
  http_count : Nat := 0
  m3u8_count : Nat := 0
  imgs_count : Nat := 0
  formats : List SmilFormat := []
  subtitles : Subtitles := []

end YtDlp

namespace YtDlp

/-- Modelled from the spec: `mimetype2ext` from `yt_dlp/utils` (subtype after
the slash, with the common renamings). -/
def mimetype2ext (o : Option String) : Option String :=
  match o with
  | none => none
  | some t =>
    let sub : List Char := ((cs t).reverse.takeWhile (fun c => c ≠ '/')).reverse
    if sub.length = (cs t).length then none
    else if sub = cs "jpeg" then some "jpg"
    else some ⟨sub⟩

/-- Modelled from the spec: `urllib.parse.urljoin(base + '/', src)`
(simple-join model). -/
def urljoinM (b u : String) : String := b ++ u

/-- `'%d' % (count if bitrate is None else bitrate)`. -/
def countOrBitrate (count : Nat) (bitrate : Option ℚ) : String :=
  match bitrate with
  | none => Nat.repr count
  | some b => Int.repr (qTruncInt b)

/-- `'%d' % (bitrate or count)` (Python truthiness: `0.0` falls back). -/
def bitrateOrCount (bitrate : Option ℚ) (count : Nat) : String :=
  match bitrate with
  | none => Nat.repr count
  | some b => if b = 0 then Nat.repr count else Int.repr (qTruncInt b)

/-- One `<video>`/`<audio>`/`<media>` element of the SMIL media loop. -/
def smilMediumStep (env : SmilEnv) (base : String) (st : SmilState) (m : SmilMedium) :
    SmilState :=
  match m.src with
  | none => st
  | some src =>
    if src = "" ∨ src ∈ st.srcs then st
    else
      let st0 := { st with srcs := st.srcs ++ [src] }
      let src_ext := orTruthy (determine_ext src none) (orTruthy m.ext (env.detectExt src))
      let streamer := (orTruthy m.streamer (some base)).getD base
      if m.proto = some "rtmp" ∨ startsWithL (cs "rtmp") (cs streamer) then
        let rc := st0.rtmp_count + 1
        let f : SmilFormat :=
          { url := streamer
            play_path := some src
            ext := some "flv"
            format_id := "rtmp-" ++ countOrBitrate rc m.bitrate
            tbr := m.bitrate
            filesize := m.filesize
            width := m.width
            height := m.height }
        let f :=
          match env.transformRtmp with
          | some tr => { f with url := (tr streamer src).1, play_path := some (tr streamer src).2 }
          | none => f
        { st0 with rtmp_count := rc, formats := st0.formats ++ [f] }
      else
        let src_url := if startsWithL (cs "http") (cs src) then src else urljoinM (base ++ "/") src
        let src_url : String := ⟨stripL (cs src_url)⟩
        if m.proto = some "m3u8" ∨ src_ext = some "m3u8" then
          let r := env.fetchM3u8 src_url
          let st1 := { st0 with subtitles := mergeSubtitles r.2 st0.subtitles }
          match r.1 with
          | [f] =>
            let mc := st1.m3u8_count + 1
            { st1 with
              m3u8_count := mc
              formats := st1.formats ++ [{ f with
                format_id := "hls-" ++ countOrBitrate mc m.bitrate
                tbr := m.bitrate
                width := m.width
                height := m.height }] }
          | fs => { st1 with formats := st1.formats ++ fs }
        else if src_ext = some "f4m" then
          let f4m_url := src_url
            ++ (if containsSubL (cs "?") (cs src_url) then "&" else "?") ++ env.f4mQuery
          { st0 with formats := st0.formats ++ env.fetchF4m f4m_url }
        else if src_ext = some "mpd" then
          let r := env.fetchMpd src_url
          { st0 with
            formats := st0.formats ++ r.1
            subtitles := mergeSubtitles r.2 st0.subtitles }
        else if containsSubL (cs ".ism/Manifest") (cs src_url)
            ∨ containsSubL (cs ".ism/manifest") (cs src_url) then
          let r := env.fetchIsm src_url
          { st0 with
            formats := st0.formats ++ r.1
            subtitles := mergeSubtitles r.2 st0.subtitles }
        else if startsWithL (cs "http") (cs src_url) ∧ env.isValidUrl src then
          let hc := st0.http_count + 1
          { st0 with
            http_count := hc
            formats := st0.formats ++ [{
              url := src_url
              ext := (orTruthy m.ext (orTruthy src_ext (some "flv"))).getD "flv"
              format_id := "http-" ++ bitrateOrCount m.bitrate hc
              tbr := m.bitrate
              filesize := m.filesize
              width := m.width
              height := m.height }] }
        else st0

/-- One `<imagestream>` element (shares the media loop's seen-set). -/
def smilImageStep (st : SmilState) (m : SmilImage) : SmilState :=
  match m.src with
  | none => st
  | some src =>
    if src = "" ∨ src ∈ st.srcs then st
    else
      let ic := st.imgs_count + 1
      { st with
        srcs := st.srcs ++ [src]
        imgs_count := ic
        formats := st.formats ++ [{
          format_id := "imagestream-" ++ Nat.repr ic
          url := src
          ext := mimetype2ext m.imgType
          acodec := some "none"
          vcodec := some "none"
          width := m.width
          height := m.height
          format_note := some "SMIL storyboards" }] }

/-- `_parse_smil_subtitles`: its own `urls` seen-list, independent of the
media loop's `srcs`. -/
def smilTextStep (subtitles_lang : String) (st : List String × Subtitles) (t : SmilText) :
    List String × Subtitles :=
  match t.src with
  | none => st
  | some src =>
    if src = "" ∨ src ∈ st.1 then st
    else
      let ext := orTruthy t.ext
        (orTruthy (mimetype2ext t.ttype) (determine_ext src (some "unknown_video")))
      let lang := (orTruthy t.systemLanguage (orTruthy t.systemLanguageName
        (orTruthy t.lang (some subtitles_lang)))).getD subtitles_lang
      (st.1 ++ [src], subsAdd lang { url := src, ext := ext } st.2)

/-- `_parse_smil_subtitles(smil, namespace, subtitles_lang='en')`. -/
def parse_smil_subtitles (subtitles_lang : String) (ts : List SmilText) : Subtitles :=
  (ts.foldl (smilTextStep subtitles_lang) ([], [])).2

/-- `_parse_smil_formats_and_subtitles`. -/
def parse_smil_formats_and_subtitles (env : SmilEnv) (smil_url : String) (doc : SmilDoc) :
    List SmilFormat × Subtitles :=
  let base := (orTruthy doc.metaBase (some smil_url)).getD smil_url
  let st := (doc.videos ++ doc.audios ++ doc.medias).foldl (smilMediumStep env base) {}
  let st := doc.imagestreams.foldl smilImageStep st
  let smil_subs := parse_smil_subtitles "en" doc.textstreams
  (st.formats, mergeSubtitles smil_subs st.subtitles)

end YtDlp

namespace YtDlp

/-- The processed-media branches all leave `srcs := srcs ++ [src]`. -/
theorem smilMediumStep_srcs (env : SmilEnv) (base : String) (st : SmilState)
    (m : SmilMedium) (s : String) (hs : m.src = some s)
    (hne : ¬ (s = "" ∨ s ∈ st.srcs)) :
    (smilMediumStep env base st m).srcs = st.srcs ++ [s] := by
  unfold smilMediumStep
  rw [hs]
  dsimp only
  rw [if_neg hne]
  repeat' split
  all_goals rfl

/-- Deduplicate a media-element list against a seen-set, returning the kept
elements and the final seen-set. -/
def dedupMediaFrom (seen : List String) : List SmilMedium → List SmilMedium × List String
  | [] => ([], seen)
  | e :: rest =>
    match e.src with
    | some s =>
      if s = "" ∨ s ∈ seen then dedupMediaFrom seen rest
      else
        let r := dedupMediaFrom (seen ++ [s]) rest
        (e :: r.1, r.2)
    | none => dedupMediaFrom seen rest

/-- Deduplicate imagestream elements against a seen-set. -/
def dedupImagesFrom (seen : List String) : List SmilImage → List SmilImage × List String
  | [] => ([], seen)
  | e :: rest =>
    match e.src with
    | some s =>
      if s = "" ∨ s ∈ seen then dedupImagesFrom seen rest
      else
        let r := dedupImagesFrom (seen ++ [s]) rest
        (e :: r.1, r.2)
    | none => dedupImagesFrom seen rest

/-- Deduplicate textstream elements against a seen-list. -/
def dedupTextsFrom (seen : List String) : List SmilText → List SmilText × List String
  | [] => ([], seen)
  | e :: rest =>
    match e.src with
    | some s =>
      if s = "" ∨ s ∈ seen then dedupTextsFrom seen rest
      else
        let r := dedupTextsFrom (seen ++ [s]) rest
        (e :: r.1, r.2)
    | none => dedupTextsFrom seen rest

/-- The deduplication the parser actually performs: one shared seen-set across
`video`/`audio`/`media` and `imagestream` elements, and an independent one for
`textstream` elements (media elements are gathered into one list, which is how
the parser consumes them). -/
def dedupSmil (doc : SmilDoc) : SmilDoc :=
  let m := dedupMediaFrom [] (doc.videos ++ doc.audios ++ doc.medias)
  let im := dedupImagesFrom m.2 doc.imagestreams
  let tx := dedupTextsFrom [] doc.textstreams
  { doc with
    videos := m.1, audios := [], medias := [],
    imagestreams := im.1, textstreams := tx.1 }

theorem mediumFold_dedup (env : SmilEnv) (base : String) :
    ∀ (l : List SmilMedium) (st : SmilState),
      List.foldl (smilMediumStep env base) st l
        = List.foldl (smilMediumStep env base) st (dedupMediaFrom st.srcs l).1 ∧
      (List.foldl (smilMediumStep env base) st l).srcs = (dedupMediaFrom st.srcs l).2 := by
  intro l
  induction l with
  | nil => intro st; exact ⟨rfl, rfl⟩
  | cons e rest ih =>
    intro st
    rw [List.foldl_cons, dedupMediaFrom]
    cases hs : e.src with
    | none =>
      have hstep : smilMediumStep env base st e = st := by
        unfold smilMediumStep
        rw [hs]
      rw [hstep]
      exact ih st
    | some s =>
      by_cases hc : s = "" ∨ s ∈ st.srcs
      · have hstep : smilMediumStep env base st e = st := by
          unfold smilMediumStep
          rw [hs]
          dsimp only
          rw [if_pos hc]
        dsimp only
        rw [if_pos hc, hstep]
        exact ih st
      · have hsrcs := smilMediumStep_srcs env base st e s hs hc
        dsimp only
        rw [if_neg hc]
        dsimp only
        rw [List.foldl_cons]
        have ih2 := ih (smilMediumStep env base st e)
        rw [hsrcs] at ih2
        exact ih2

theorem imageFold_dedup :
    ∀ (l : List SmilImage) (st : SmilState),
      List.foldl smilImageStep st l
        = List.foldl smilImageStep st (dedupImagesFrom st.srcs l).1 := by
  intro l
  have main : ∀ (l : List SmilImage) (st : SmilState),
      List.foldl smilImageStep st l
        = List.foldl smilImageStep st (dedupImagesFrom st.srcs l).1 ∧
      (List.foldl smilImageStep st l).srcs = (dedupImagesFrom st.srcs l).2 := by
    intro l
    induction l with
    | nil => intro st; exact ⟨rfl, rfl⟩
    | cons e rest ih =>
      intro st
      rw [List.foldl_cons, dedupImagesFrom]
      cases hs : e.src with
      | none =>
        have hstep : smilImageStep st e = st := by
          unfold smilImageStep
          rw [hs]
        rw [hstep]
        exact ih st
      | some s =>
        by_cases hc : s = "" ∨ s ∈ st.srcs
        · have hstep : smilImageStep st e = st := by
            unfold smilImageStep
            rw [hs]
            dsimp only
            rw [if_pos hc]
          dsimp only
          rw [if_pos hc, hstep]
          exact ih st
        · have hsrcs : (smilImageStep st e).srcs = st.srcs ++ [s] := by
            unfold smilImageStep
            rw [hs]
            dsimp only
            rw [if_neg hc]
          dsimp only
          rw [if_neg hc]
          dsimp only
          rw [List.foldl_cons]
          have ih2 := ih (smilImageStep st e)
          rw [hsrcs] at ih2
          exact ih2
  exact fun st => (main l st).1

theorem textFold_dedup (lang : String) :
    ∀ (l : List SmilText) (st : List String × Subtitles),
      List.foldl (smilTextStep lang) st l
        = List.foldl (smilTextStep lang) st (dedupTextsFrom st.1 l).1 ∧
      (List.foldl (smilTextStep lang) st l).1 = (dedupTextsFrom st.1 l).2 := by
  intro l
  induction l with
  | nil => intro st; exact ⟨rfl, rfl⟩
  | cons e rest ih =>
    intro st
    rw [List.foldl_cons, dedupTextsFrom]
    cases hs : e.src with
    | none =>
      have hstep : smilTextStep lang st e = st := by
        unfold smilTextStep
        rw [hs]
      rw [hstep]
      exact ih st
    | some s =>
      by_cases hc : s = "" ∨ s ∈ st.1
      · have hstep : smilTextStep lang st e = st := by
          unfold smilTextStep
          rw [hs]
          dsimp only
          rw [if_pos hc]
        dsimp only
        rw [if_pos hc, hstep]
        exact ih st
      · have hsrcs : (smilTextStep lang st e).1 = st.1 ++ [s] := by
          unfold smilTextStep
          rw [hs]
          dsimp only
          rw [if_neg hc]
        dsimp only
        rw [if_neg hc]
        dsimp only
        rw [List.foldl_cons]
        have ih2 := ih (smilTextStep lang st e)
        rw [hsrcs] at ih2
        exact ih2

/-- C8 (amended): deduplication by `src` is per seen-set, not document-wide:
the `video`/`audio`/`media` and `imagestream` loops share one `srcs` set (a
`src` is processed at most once among them — the parse is unchanged by
dropping later duplicates), while `_parse_smil_subtitles` keeps its own
independent `urls` list for `textstream` elements (deduplicated only among
themselves) — so a `src` referenced by both a media element and a
`textstream` is processed twice. -/
theorem C8_smil_src_dedup (env : SmilEnv) (smil_url : String) (doc : SmilDoc) :
    parse_smil_formats_and_subtitles env smil_url doc
      = parse_smil_formats_and_subtitles env smil_url (dedupSmil doc) := by
  unfold parse_smil_formats_and_subtitles dedupSmil
  dsimp only
  set base := (orTruthy doc.metaBase (some smil_url)).getD smil_url with hb
  have hm := mediumFold_dedup env base (doc.videos ++ doc.audios ++ doc.medias)
    ({} : SmilState)
  have hst0 : ({} : SmilState).srcs = [] := rfl
  rw [hst0] at hm
  rw [hm.1, List.append_nil, List.append_nil]
  have hsrcs1 : (List.foldl (smilMediumStep env base) ({} : SmilState)
      (dedupMediaFrom [] (doc.videos ++ doc.audios ++ doc.medias)).1).srcs
      = (dedupMediaFrom [] (doc.videos ++ doc.audios ++ doc.medias)).2 := by
    rw [← hm.1]
    exact hm.2
  have him := imageFold_dedup doc.imagestreams
    (List.foldl (smilMediumStep env base) ({} : SmilState)
      (dedupMediaFrom [] (doc.videos ++ doc.audios ++ doc.medias)).1)
  rw [hsrcs1] at him
  rw [him]
  have htx := textFold_dedup "en" doc.textstreams ([], [])
  unfold parse_smil_subtitles
  rw [htx.1]

def c8doc : SmilDoc :=
  { videos := [{ src := some "shared.vtt", proto := some "rtmp" }]
    textstreams := [{ src := some "shared.vtt", ext := some "vtt",
                      systemLanguage := some "fr" }] }

/-- C8 counterexample: a `src` referenced by both a `<video>` element and a
`<textstream>` element is processed twice — the media loop emits an rtmp
format whose `play_path` is that `src`, and `_parse_smil_subtitles`, which
keeps its own independent `urls` seen-list, still emits a subtitle entry for
the same `src`; the claim says any later element referencing a seen `src` is
skipped regardless of element type. -/
theorem C8_counterexample :
    (parse_smil_formats_and_subtitles {} "http://x/s.smil" c8doc).1.map
        (fun f => f.play_path) = [some "shared.vtt"] ∧
    (parse_smil_formats_and_subtitles {} "http://x/s.smil" c8doc).2
      = [("fr", [{ url := "shared.vtt", ext := some "vtt" }])] :=
  ⟨rfl, rfl⟩

end YtDlp

namespace YtDlp

/-! ### F4M (`_parse_f4m_formats`)

The XML document is embedded as the fields the parser reads: the text of the
`pv-2.0` element (when present with text), the `media` node lists of the two
namespaces, the base URL, whether a `bootstrapInfo` element exists, and the
`mimeType` text.  Nested `_extract_f4m_formats` / `_extract_m3u8_formats`
calls download other manifests; they are oracle parameters (`F4mEnv`). -/

/-- One f4m `<media>` node (the attributes the parser reads; `drm` records
whether the node carries a `drmAdditionalHeaderId` /
`drmAdditionalHeaderSetId` attribute). -/
structure F4mMedia where
  bitrate : Option String := none
  width : Option String := none
  height : Option String := none
  url : Option String := none
  href : Option String := none
  drm : Bool := false
  deriving Repr, DecidableEq

/-- An f4m manifest. -/
structure F4mDoc where
  pv : Option String := none
  media10 : List F4mMedia := []
  media20 : List F4mMedia := []
  baseUrl : Option String := none
  bootstrap : Bool := false
  mimeType : Option String := none

/-- One output format of the f4m parser. -/
structure F4mFormat where
  format_id : String := ""
  url : String := ""
  manifest_url : String := ""
  ext : Option String := none
  protocol : Option String := some "f4m"
  tbr : Option Nat := none
  width : Option Nat := none
  height : Option Nat := none
  vcodec : Option String := none
  preference : Option Int := none
  quality : Option Int := none
  deriving Repr, DecidableEq

/-- The nested-manifest fetches of the f4m parser. -/
structure F4mEnv where
  fetchF4m : String → List F4mFormat := fun _ => []
  fetchM3u8 : String → List F4mFormat := fun _ => []

/-- `int_or_none(attrib.get(...))`. -/
def intAttr (o : Option String) : Option Nat := o.bind (fun s => intOrNoneL (cs s))

/-- Python `x or y` on optional ints (`0` is falsy). -/
def orTruthyNat (x y : Option Nat) : Option Nat :=
  match x with
  | some n => if n = 0 then y else x
  | none => y

/-- Python truthiness of an optional int. -/
def natTruthy (x : Option Nat) : Bool :=
  match x with
  | some n => decide (n ≠ 0)
  | none => false

/-- `'/'.join(manifest_url.split('/')[:-1])`. -/
def dirnameUrl (u : String) : String :=
  if containsSubL (cs "/") (cs u) then
    ⟨(((cs u).reverse.dropWhile (fun c => c ≠ '/')).drop 1).reverse⟩
  else ""

/-- The Akamai pv-2.0 guard: abort only when the challenge text contains a
`';'` and the piece before the first `';'` is non-blank after stripping. -/
def pvAborts : Option String → Bool
  | none => false
  | some t =>
    if containsSubL (cs ";") (cs t) then
      decide (stripL ((cs t).takeWhile (fun c => c ≠ ';')) ≠ [])
    else false

/-- One iteration of the `media` loop (`manifest_url` is reassigned by the
loop body, so it is loop-carried state). -/
def f4mStep (env : F4mEnv) (f4m_id : Option String) (preference quality : Option Int)
    (manifest_base_url : Option String) (bootstrap : Bool) (vcodec : Option String)
    (manifest_version : String)
    (st : String × List F4mFormat) (p : Nat × F4mMedia) : String × List F4mFormat :=
  let manifest_url := st.1
  let media_el := p.2
  let tbr := intAttr media_el.bitrate
  let width := intAttr media_el.width
  let height := intAttr media_el.height
  let format_id := join_nonempty [f4m_id, natJoinPart ((orTruthyNat tbr (some p.1)).getD p.1)]
  if !bootstrap then
    let media_url0 := if manifest_version = "2.0" then media_el.href else none
    let media_url := match media_url0 with | some h => some h | none => media_el.url
    match media_url with
    | none => st
    | some mu =>
      if mu = "" then st
      else
        let murl :=
          if startsWithL (cs "http://") (cs mu) || startsWithL (cs "https://") (cs mu) then mu
          else ((orTruthy manifest_base_url (some (dirnameUrl manifest_url))).getD "")
            ++ "/" ++ mu
        let ext := determine_ext murl (some "unknown_video")
        if ext = some "f4m" then
          let f4m_formats := env.fetchF4m murl
          let f4m_formats :=
            match f4m_formats with
            | [f] => [{ f with
                tbr := orTruthyNat f.tbr tbr,
                width := orTruthyNat f.width width,
                height := orTruthyNat f.height height,
                format_id := if natTruthy tbr then format_id else f.format_id,
                vcodec := vcodec }]
            | fs => fs
          (murl, st.2 ++ f4m_formats)
        else if ext = some "m3u8" then
          (murl, st.2 ++ env.fetchM3u8 murl)
        else
          (murl, st.2 ++ [{ format_id := format_id, url := murl, manifest_url := murl,
                            ext := none, tbr := tbr, width := width, height := height,
                            vcodec := vcodec, preference := preference,
                            quality := quality }])
  else
    (manifest_url, st.2 ++ [{ format_id := format_id, url := manifest_url,
                              manifest_url := manifest_url, ext := some "flv", tbr := tbr,
                              width := width, height := height, vcodec := vcodec,
                              preference := preference, quality := quality }])

/-- `_parse_f4m_formats(manifest, manifest_url, video_id, ...)` (the
`remove_encrypted_media` filter drops DRM-marked nodes, modelled from the
spec; everything else is embedded from the source). -/
def parse_f4m_formats (env : F4mEnv) (manifest : F4mDoc) (manifest_url : String)
    (preference quality : Option Int) (f4m_id : Option String) : List F4mFormat :=
  if pvAborts manifest.pv then []
  else
    let mv := if manifest.media10 ≠ [] then ("1.0", manifest.media10)
              else ("2.0", manifest.media20)
    let media_nodes := mv.2.filter (fun m => !m.drm)
    if media_nodes = [] then []
    else
      let vcodec : Option String :=
        match manifest.mimeType with
        | some mt => if startsWithL (cs "audio/") (cs mt) then some "none" else none
        | none => none
      (media_nodes.enum.foldl
        (f4mStep env f4m_id preference quality manifest.baseUrl manifest.bootstrap vcodec
          mv.1)
        (manifest_url, [])).2

def c9doc : F4mDoc :=
  { pv := some "abc", bootstrap := true,
    media10 := [{ bitrate := some "100", url := some "media.flv" }] }

/-- C9 counterexample: a pv-2.0 challenge element with non-empty text that
contains no `';'` does not trigger the abort (`';' in akamai_pv.text` is
false), so the parser proceeds and produces a format — the claim requires an
empty format list for every non-empty challenge. -/
theorem C9_counterexample :
    (parse_f4m_formats {} c9doc "http://x/a.f4m" none none (some "hds")).length = 1 := rfl

/-- C9 (amended): the Akamai pv-2.0 abort fires exactly when the challenge
text contains a `';'` AND the segment before the first `';'` is non-blank
after stripping; in that case `_parse_f4m_formats` returns the empty format
list without raising. -/
theorem C9_f4m_pv_abort (env : F4mEnv) (manifest : F4mDoc) (manifest_url : String)
    (preference quality : Option Int) (f4m_id : Option String) (t : String)
    (h1 : manifest.pv = some t)
    (h2 : containsSubL (cs ";") (cs t) = true)
    (h3 : stripL ((cs t).takeWhile (fun c => c ≠ ';')) ≠ []) :
    parse_f4m_formats env manifest manifest_url preference quality f4m_id = [] := by
  have hab : pvAborts manifest.pv = true := by
    rw [h1]
    unfold pvAborts
    dsimp only
    rw [if_pos h2]
    exact decide_eq_true h3
  unfold parse_f4m_formats
  rw [if_pos hab]

def c9abortDoc : F4mDoc :=
  { pv := some "abc;def", bootstrap := true,
    media10 := [{ bitrate := some "100", url := some "media.flv" }] }

theorem C9_witness :
    parse_f4m_formats {} c9abortDoc "http://x/a.f4m" none none (some "hds") = [] :=
  C9_f4m_pv_abort {} c9abortDoc "http://x/a.f4m" none none (some "hds") "abc;def"
    rfl (by decide) (by decide)

end YtDlp
